import Mathlib

/-!
# SyncFlaer: Traefik router rules to DNS record descriptors

A shallow embedding of `internal/traefik.go` (package `sf`) and the properties
of its reconciliation pass `GetTraefikRules`.

Go strings are modelled by Lean `String`s.  The router rules come out of
`json.Unmarshal`, which yields valid UTF-8, and every hostname the regular
expression captures consists of the ASCII characters `a`-`z`, `0`-`9`, `-` and
`.` only, so reading a string rune by rune (`regexp`) or byte by byte
(`strings.Contains`, `==`) agrees with reading the list of its characters.
-/

/-! ## Data model -/

/-- One entry of `TraefikRouter.TLS.Domains` (lines 24-27). -/
structure TraefikRouter.Domain where
  Main : String
  Sans : List String
deriving DecidableEq, Repr

/-- The anonymous struct of the field `TLS` of `TraefikRouter` (lines 22-28). -/
structure TraefikRouter.TLSConfig where
  CertResolver : String
  Domains : List TraefikRouter.Domain
deriving DecidableEq, Repr

/-- TraefikRouter is a struct to store a router object of Traefik (lines 17-34). -/
structure TraefikRouter where
  EntryPoints : List String
  Middlewares : List String
  Service : String
  Rule : String
  TLS : TraefikRouter.TLSConfig
  Status : String
  Using : List String
  Name : String
  Provider : String
  Priority : Int
deriving DecidableEq, Repr

/-- Modelled from the spec: the record type `cloudflare.DNSRecord` is declared in
the library `cloudflare-go`, not in this repository.  The spec's record descriptor
has a record type, a name, a content, a proxied flag and a TTL; these are the five
fields the struct literal of lines 103-109 sets and the one (`Name`) that
`checkDuplicateRule` reads. -/
structure DNSRecord where
  «Type» : String
  Name : String
  Content : String
  Proxied : Bool
  TTL : Int
deriving DecidableEq, Repr

/-- Modelled from the spec: the instance configuration (`config.TraefikInstances`
is declared outside `traefik.go`): base URL, optional username and password, the
list of ignored-rule substrings and a display name. -/
structure TraefikInstance where
  Name : String
  URL : String
  Username : String
  Password : String
  IgnoredRules : List String
deriving DecidableEq, Repr

/-- Modelled from the spec: `config.Cloudflare.Defaults`, the global default
record type, proxied flag and TTL. -/
structure CloudflareDefaults where
  «Type» : String
  Proxied : Bool
  TTL : Int
deriving DecidableEq, Repr

/-- Modelled from the spec: `config.Cloudflare`, of which `traefik.go` reads the
defaults and the zone name. -/
structure CloudflareConfig where
  Defaults : CloudflareDefaults
  ZoneName : String
deriving DecidableEq, Repr

/-- Modelled from the spec: the package-level `config` value, passed explicitly. -/
structure Config where
  TraefikInstances : List TraefikInstance
  Cloudflare : CloudflareConfig
deriving DecidableEq, Repr

/-! ## The library functions the file calls -/

namespace regexp

/-- The operators of Go's `regexp/syntax` that the pattern of line 82 parses to:
a literal run of characters (`OpLiteral`), a character class given by its ranges
(`OpCharClass`), concatenation (`OpConcat`), the greedy star (`OpStar`) and a
numbered capture group (`OpCapture`). -/
inductive Regexp where
  | lit (s : List Char)
  | cls (ranges : List (Char × Char))
  | cat (r s : Regexp)
  | star (r : Regexp)
  | cap (i : Nat) (r : Regexp)
deriving Repr

/-- The greedy `r+`, which is `r` followed by `r*`. -/
def Regexp.plus (r : Regexp) : Regexp := .cat r (.star r)

/-- The greedy `r{2,}`, which `regexp/syntax` simplifies to `r r r*`. -/
def Regexp.atLeastTwo (r : Regexp) : Regexp := .cat r (.cat r (.star r))

/-- The capture slots of one thread of the search: the most recent text of each
group comes first. -/
abbrev Caps := List (Nat × List Char)

/-- What is still to be matched after a sub-expression: it receives the rest of
the input and the capture slots. -/
abbrev Cont := List Char → Caps → Option Caps

/-- Membership of a character in a class given by inclusive ranges. -/
def inClass (ranges : List (Char × Char)) (c : Char) : Bool :=
  ranges.any (fun lh => decide (lh.1 ≤ c) && decide (c ≤ lh.2))

/-- The loop of a greedy star: one more iteration of the body is tried before
leaving the loop, and an iteration that consumes nothing is not repeated (no star
of the pattern of line 82 has a body that matches the empty text).  At most `n`
iterations are run; `run` calls it with the length of the input, which no sequence
of consuming iterations exceeds (`run_complete`). -/
def starLoop (step : List Char → Caps → Cont → Option Caps) :
    Nat → List Char → Caps → Cont → Option Caps
  | 0, inp, caps, k => k inp caps
  | n + 1, inp, caps, k =>
    match step inp caps (fun inp' caps' =>
        if inp'.length < inp.length then starLoop step n inp' caps' k else none) with
    | some res => some res
    | none => k inp caps

/-- The backtracking search that defines Go's leftmost-first semantics ("among the
matches that begin at a position it chooses the one that a backtracking search
would have found first"): `run r inp caps k` matches `r` at the head of `inp` and
hands the rest to `k`, trying the alternatives of every greedy operator in order
of preference and returning the first success. -/
def run : Regexp → List Char → Caps → Cont → Option Caps
  | .lit s, inp, caps, k => if s.isPrefixOf inp then k (inp.drop s.length) caps else none
  | .cls rs, inp, caps, k =>
    match inp with
    | c :: rest => if inClass rs c then k rest caps else none
    | [] => none
  | .cat r s, inp, caps, k => run r inp caps (fun inp' caps' => run s inp' caps' k)
  | .star r, inp, caps, k => starLoop (run r) inp.length inp caps k
  | .cap i r, inp, caps, k =>
    run r inp caps (fun inp' caps' =>
      k inp' ((i, inp.take (inp.length - inp'.length)) :: caps'))

/-- A match of `re` that begins exactly at the head of `inp`; group 0 records the
whole match. -/
def matchHere (re : Regexp) (inp : List Char) : Option Caps :=
  run (.cap 0 re) inp [] (fun _ caps => some caps)

/-- The unanchored search: the match that begins as early as possible in the
input. -/
def find (re : Regexp) : List Char → Option Caps
  | [] => matchHere re []
  | c :: cs =>
    match matchHere re (c :: cs) with
    | some res => some res
    | none => find re cs

/-- The largest group number of an expression (`NumSubexp`). -/
def Regexp.NumSubexp : Regexp → Nat
  | .lit _ => 0
  | .cls _ => 0
  | .cat r s => max r.NumSubexp s.NumSubexp
  | .star r => r.NumSubexp
  | .cap i r => max i r.NumSubexp

/-- The text of group `i`; a group that took no part in the match is the empty
string. -/
def submatch (caps : Caps) (i : Nat) : String :=
  String.mk ((caps.lookup i).getD [])

/-- The method `(*Regexp).MatchString`: whether the string contains any match. -/
def MatchString (re : Regexp) (s : String) : Bool :=
  (find re s.data).isSome

/-- The method `(*Regexp).FindStringSubmatch`: the text of the leftmost match and
of its groups, and `nil` (the empty list) when there is no match. -/
def FindStringSubmatch (re : Regexp) (s : String) : List String :=
  match find re s.data with
  | none => []
  | some caps => (List.range (re.NumSubexp + 1)).map (submatch caps)

end regexp

namespace strings

/-- The function `strings.Contains(s, substr)` on the characters of the two
strings: `substr` begins at some position of `s`. -/
def containsChars : List Char → List Char → Bool
  | [], substr => substr.isEmpty
  | c :: cs, substr => substr.isPrefixOf (c :: cs) || containsChars cs substr

/-- The function `strings.Contains`. -/
def Contains (s substr : String) : Bool :=
  containsChars s.data substr.data

end strings

/-! ## `traefik.go` -/

/-- The character that the pattern writes `\x60`. -/
def backquote : Char := Char.ofNat 0x60

/-- The class `[a-z0-9]`. -/
def alnum : regexp.Regexp := .cls [('a', 'z'), ('0', '9')]

/-- The class `[a-z]`. -/
def lower : regexp.Regexp := .cls [('a', 'z')]

/-- Group 3 of the pattern: `(-[a-z0-9]+)`. -/
def hyphenRun : regexp.Regexp := .cap 3 (.cat (.lit ['-']) alnum.plus)

/-- Group 2 of the pattern: `([a-z0-9]+(-[a-z0-9]+)*\.)`. -/
def dottedLabel : regexp.Regexp :=
  .cap 2 (.cat alnum.plus (.cat (.star hyphenRun) (.lit ['.'])))

/-- The inside of group 1: `([a-z0-9]+(-[a-z0-9]+)*\.)+[a-z]{2,}`. -/
def hostExpr : regexp.Regexp := .cat dottedLabel.plus lower.atLeastTwo

/-- The compiled pattern of line 82; the flag `(?m)` changes only what `^` and `$`
match, and the pattern has neither. -/
def re : regexp.Regexp :=
  .cat (.lit ['H', 'o', 's', 't', '(', backquote])
    (.cat (.cap 1 hostExpr) (.lit [backquote, ')']))

/-- The function `checkDuplicateRule` (lines 36-43). -/
def checkDuplicateRule (rule : String) : List DNSRecord → Bool
  | [] => false
  | r :: rules => if r.Name = rule then true else checkDuplicateRule rule rules

/-- The `switch` of lines 84-90: `content` starts as the empty string. -/
def GetTraefikRules.content (config : Config) (currentIP : String) : String :=
  if config.Cloudflare.Defaults.«Type» = "A" then currentIP
  else if config.Cloudflare.Defaults.«Type» = "CNAME" then config.Cloudflare.ZoneName
  else ""

/-- The loop of lines 98-102: whether it reaches `continue rules`. -/
def GetTraefikRules.ignored (hostMatch : String) : List String → Bool
  | [] => false
  | ignoredRule :: rest =>
    if strings.Contains hostMatch ignoredRule then true
    else GetTraefikRules.ignored hostMatch rest

/-- The body of the loop `rules` (lines 95-112) for one router: the accumulator
`userRecords` after it.  The index `[1]` is in range whenever `MatchString` holds
(`findStringSubmatch_length`). -/
def GetTraefikRules.router (config : Config) (content : String)
    (traefikInstance : TraefikInstance) (userRecords : List DNSRecord)
    (router : TraefikRouter) : List DNSRecord :=
  if regexp.MatchString re router.Rule then
    let hostMatch := (regexp.FindStringSubmatch re router.Rule).getD 1 ""
    if !checkDuplicateRule hostMatch userRecords then
      if GetTraefikRules.ignored hostMatch traefikInstance.IgnoredRules then
        userRecords
      else
        userRecords ++ [{
          «Type» := config.Cloudflare.Defaults.«Type»
          Name := hostMatch
          Content := content
          Proxied := config.Cloudflare.Defaults.Proxied
          TTL := config.Cloudflare.Defaults.TTL }]
    else userRecords
  else userRecords

/-- The loop `rules` (lines 93-113) over the decoded routers of one instance. -/
def GetTraefikRules.rules (config : Config) (content : String)
    (traefikInstance : TraefikInstance) (traefikRouters : List TraefikRouter)
    (userRecords : List DNSRecord) : List DNSRecord :=
  traefikRouters.foldl (GetTraefikRules.router config content traefikInstance) userRecords

/-- The loop over `config.TraefikInstances` (lines 47-115), from the instance
number `i` on.  `responses i` is the outcome of lines 48-80 for instance number
`i`: `none` when one of the `log.Fatalf` calls ends the process (URL, request,
transport, status, body or JSON), `some traefikRouters` when the router list is
decoded.  The debug line 114 has no effect on the result. -/
def GetTraefikRules.instances (config : Config) (currentIP : String)
    (responses : Nat → Option (List TraefikRouter)) :
    Nat → List TraefikInstance → List DNSRecord → Option (List DNSRecord)
  | _, [], userRecords => some userRecords
  | i, traefikInstance :: rest, userRecords =>
    match responses i with
    | none => none
    | some traefikRouters =>
      GetTraefikRules.instances config currentIP responses (i + 1) rest
        (GetTraefikRules.rules config (GetTraefikRules.content config currentIP)
          traefikInstance traefikRouters userRecords)

/-- GetTraefikRules gathers and formats all Traefik http routers (lines 46-118).
The globals `config` and `currentIP` and the responses of the instances are
arguments; the result is `none` when the process is ended by `log.Fatalf`. -/
def GetTraefikRules (config : Config) (currentIP : String)
    (responses : Nat → Option (List TraefikRouter)) (userRecords : List DNSRecord) :
    Option (List DNSRecord) :=
  GetTraefikRules.instances config currentIP responses 0 config.TraefikInstances userRecords

/-- The language of an expression: the texts it matches, whatever the order of
preference among them. -/
def regexp.Lang : regexp.Regexp → List Char → Prop
  | .lit s, w => w = s
  | .cls rs, w => ∃ c, regexp.inClass rs c = true ∧ w = [c]
  | .cat r s, w => ∃ u v, regexp.Lang r u ∧ regexp.Lang s v ∧ w = u ++ v
  | .star r, w => ∃ us : List (List Char), (∀ u ∈ us, regexp.Lang r u) ∧ w = us.flatten
  | .cap _ r, w => regexp.Lang r w

/-- The text `Host(` with the opening backquote. -/
def hostOpen : List Char := ['H', 'o', 's', 't', '(', backquote]

/-- The closing backquote and parenthesis. -/
def hostClose : List Char := [backquote, ')']

/-- The clause that names the hostname `h`: `Host(`, a backquote, `h`, a backquote
and `)`. -/
def hostClause (h : List Char) : List Char := hostOpen ++ h ++ hostClose

/-- A lowercase letter. -/
def IsLower (c : Char) : Prop := 'a' ≤ c ∧ c ≤ 'z'

/-- A lowercase letter or a digit. -/
def IsLowerOrDigit (c : Char) : Prop := ('a' ≤ c ∧ c ≤ 'z') ∨ ('0' ≤ c ∧ c ≤ '9')

/-- A run of lowercase letters and digits: at least one character. -/
def IsRun (s : List Char) : Prop := s ≠ [] ∧ ∀ c ∈ s, IsLowerOrDigit c

/-- A label as the specification words it: one or more runs of lowercase letters
and digits joined by single hyphens, so that no hyphen leads or trails. -/
def IsLabel (l : List Char) : Prop :=
  ∃ runs : List (List Char), runs ≠ [] ∧ (∀ r ∈ runs, IsRun r) ∧
    l = List.intercalate ['-'] runs

/-- A final label: at least two lowercase letters. -/
def IsFinalLabel (f : List Char) : Prop := 2 ≤ f.length ∧ ∀ c ∈ f, IsLower c

/-- A well-formed hostname as the specification words it: one or more labels,
each followed by a dot, and then a final label. -/
def IsHostname (h : List Char) : Prop :=
  ∃ (labels : List (List Char)) (final : List Char), labels ≠ [] ∧
    (∀ l ∈ labels, IsLabel l) ∧ IsFinalLabel final ∧
    h = (labels.map (fun l => l ++ ['.'])).flatten ++ final

instance : DecidablePred IsLower := fun c => by unfold IsLower; infer_instance

instance : DecidablePred IsLowerOrDigit := fun c => by unfold IsLowerOrDigit; infer_instance

/-! ## Vocabulary of the properties -/

/-- The hostname that lines 95-96 extract from a rule: the text of group 1 of the
leftmost match, and `none` when the pattern does not match. -/
def extractHostname (rule : String) : Option String :=
  if regexp.MatchString re rule then
    some ((regexp.FindStringSubmatch re rule).getD 1 "")
  else none

/-- The steps of one pass in the order the two nested loops run them: the routers
of instance number `i` (its decoded list is `lists i`), then those of the next
instance. -/
def schedule (lists : Nat → List TraefikRouter) :
    Nat → List TraefikInstance → List (TraefikInstance × TraefikRouter)
  | _, [] => []
  | i, inst :: rest => (lists i).map (fun r => (inst, r)) ++ schedule lists (i + 1) rest

/-- The accumulator after a sequence of steps. -/
def runSteps (config : Config) (content : String)
    (steps : List (TraefikInstance × TraefikRouter)) (acc : List DNSRecord) : List DNSRecord :=
  steps.foldl (fun a p => GetTraefikRules.router config content p.1 a p.2) acc

/-- A router of which only the rule is set. -/
def routerWithRule (rule : String) : TraefikRouter :=
  { EntryPoints := [], Middlewares := [], Service := "", Rule := rule,
    TLS := { CertResolver := "", Domains := [] }, Status := "", Using := [],
    Name := "", Provider := "", Priority := 0 }

/-- An instance with the given ignore list. -/
def instanceIgnoring (name : String) (ignoredRules : List String) : TraefikInstance :=
  { Name := name, URL := "http://traefik:8080", Username := "", Password := "",
    IgnoredRules := ignoredRules }

/-- A configuration with the given instances and default record type, zone
`example.com`, proxied records and TTL 1. -/
def sampleConfig (instances : List TraefikInstance) (recordType : String) : Config :=
  { TraefikInstances := instances,
    Cloudflare := { Defaults := { «Type» := recordType, Proxied := true, TTL := 1 },
                    ZoneName := "example.com" } }

/-! ## Elementary facts about the helpers -/

theorem checkDuplicateRule_iff (rule : String) (rules : List DNSRecord) :
    checkDuplicateRule rule rules = true ↔ ∃ r ∈ rules, r.Name = rule := by
  induction rules with
  | nil => simp [checkDuplicateRule]
  | cons r rs ih => by_cases h : r.Name = rule <;> simp [checkDuplicateRule, h, ih]

theorem checkDuplicateRule_eq_false (rule : String) (rules : List DNSRecord) :
    checkDuplicateRule rule rules = false ↔ ∀ r ∈ rules, r.Name ≠ rule := by
  rw [← Bool.not_eq_true, checkDuplicateRule_iff]
  simp

theorem containsChars_iff (s substr : List Char) :
    strings.containsChars s substr = true ↔ substr <:+: s := by
  induction s with
  | nil => simp [strings.containsChars, List.infix_nil]
  | cons c cs ih =>
    simp only [strings.containsChars, Bool.or_eq_true, ih, List.isPrefixOf_iff_prefix,
      List.infix_cons_iff]

theorem contains_iff (s substr : String) :
    strings.Contains s substr = true ↔ substr.data <:+: s.data :=
  containsChars_iff _ _

theorem ignored_iff (h : String) (ignoredRules : List String) :
    GetTraefikRules.ignored h ignoredRules = true ↔
      ∃ ig ∈ ignoredRules, ig.data <:+: h.data := by
  induction ignoredRules with
  | nil => simp [GetTraefikRules.ignored]
  | cons ig rest ih =>
    by_cases hc : strings.Contains h ig = true
    · simp [GetTraefikRules.ignored, hc, (contains_iff h ig).1 hc]
    · have hn : ¬ ig.data <:+: h.data := fun hi => hc ((contains_iff h ig).2 hi)
      simp [GetTraefikRules.ignored, hc, hn, ih]

/-- The step for one router in terms of the extracted hostname. -/
theorem router_eq (config : Config) (content : String) (inst : TraefikInstance)
    (acc : List DNSRecord) (router : TraefikRouter) :
    GetTraefikRules.router config content inst acc router =
      match extractHostname router.Rule with
      | none => acc
      | some h =>
        if checkDuplicateRule h acc = true ∨ GetTraefikRules.ignored h inst.IgnoredRules = true
        then acc
        else acc ++ [{ «Type» := config.Cloudflare.Defaults.«Type», Name := h,
                       Content := content, Proxied := config.Cloudflare.Defaults.Proxied,
                       TTL := config.Cloudflare.Defaults.TTL }] := by
  unfold GetTraefikRules.router extractHostname
  by_cases hm : regexp.MatchString re router.Rule = true
  · simp only [hm, if_true]
    cases hd : checkDuplicateRule ((regexp.FindStringSubmatch re router.Rule).getD 1 "") acc <;>
      cases hi : GetTraefikRules.ignored
        ((regexp.FindStringSubmatch re router.Rule).getD 1 "") inst.IgnoredRules <;> simp
  · simp [hm]

theorem router_of_none {config : Config} {content : String} {inst : TraefikInstance}
    {acc : List DNSRecord} {router : TraefikRouter}
    (h : extractHostname router.Rule = none) :
    GetTraefikRules.router config content inst acc router = acc := by
  rw [router_eq, h]

theorem router_of_duplicate {config : Config} {content : String} {inst : TraefikInstance}
    {acc : List DNSRecord} {router : TraefikRouter} {h : String}
    (hh : extractHostname router.Rule = some h) (hd : ∃ r ∈ acc, r.Name = h) :
    GetTraefikRules.router config content inst acc router = acc := by
  rw [router_eq, hh]
  simp [(checkDuplicateRule_iff h acc).2 hd]

theorem router_of_ignored {config : Config} {content : String} {inst : TraefikInstance}
    {acc : List DNSRecord} {router : TraefikRouter} {h : String}
    (hh : extractHostname router.Rule = some h)
    (hi : ∃ ig ∈ inst.IgnoredRules, ig.data <:+: h.data) :
    GetTraefikRules.router config content inst acc router = acc := by
  rw [router_eq, hh]
  simp [(ignored_iff h inst.IgnoredRules).2 hi]

theorem router_of_accepted {config : Config} {content : String} {inst : TraefikInstance}
    {acc : List DNSRecord} {router : TraefikRouter} {h : String}
    (hh : extractHostname router.Rule = some h) (hd : ∀ r ∈ acc, r.Name ≠ h)
    (hi : ∀ ig ∈ inst.IgnoredRules, ¬ ig.data <:+: h.data) :
    GetTraefikRules.router config content inst acc router =
      acc ++ [{ «Type» := config.Cloudflare.Defaults.«Type», Name := h,
                Content := content, Proxied := config.Cloudflare.Defaults.Proxied,
                TTL := config.Cloudflare.Defaults.TTL }] := by
  rw [router_eq, hh]
  have h1 : ¬ checkDuplicateRule h acc = true := by
    rw [checkDuplicateRule_iff]; rintro ⟨r, hr, hn⟩; exact hd r hr hn
  have h2 : ¬ GetTraefikRules.ignored h inst.IgnoredRules = true := by
    rw [ignored_iff]; rintro ⟨ig, hig, hn⟩; exact hi ig hig hn
  simp [h1, h2]

/-- Every step leaves the accumulator as it is or appends one descriptor, named by
the extracted hostname, that no record of the accumulator is named by. -/
theorem router_cases (config : Config) (content : String) (inst : TraefikInstance)
    (acc : List DNSRecord) (router : TraefikRouter) :
    GetTraefikRules.router config content inst acc router = acc ∨
    ∃ h, extractHostname router.Rule = some h ∧ (∀ r ∈ acc, r.Name ≠ h) ∧
      (∀ ig ∈ inst.IgnoredRules, ¬ ig.data <:+: h.data) ∧
      GetTraefikRules.router config content inst acc router =
        acc ++ [{ «Type» := config.Cloudflare.Defaults.«Type», Name := h,
                  Content := content, Proxied := config.Cloudflare.Defaults.Proxied,
                  TTL := config.Cloudflare.Defaults.TTL }] := by
  cases hh : extractHostname router.Rule with
  | none => exact Or.inl (router_of_none hh)
  | some h =>
    by_cases hd : ∃ r ∈ acc, r.Name = h
    · exact Or.inl (router_of_duplicate hh hd)
    · by_cases hi : ∃ ig ∈ inst.IgnoredRules, ig.data <:+: h.data
      · exact Or.inl (router_of_ignored hh hi)
      · right
        have hd' : ∀ r ∈ acc, r.Name ≠ h := fun r hr hn => hd ⟨r, hr, hn⟩
        have hi' : ∀ ig ∈ inst.IgnoredRules, ¬ ig.data <:+: h.data :=
          fun ig hig hn => hi ⟨ig, hig, hn⟩
        exact ⟨h, rfl, hd', hi', router_of_accepted hh hd' hi'⟩

/-! ## The pass as a sequence of steps -/

theorem rules_eq_runSteps (config : Config) (content : String) (inst : TraefikInstance)
    (routers : List TraefikRouter) (acc : List DNSRecord) :
    GetTraefikRules.rules config content inst routers acc =
      runSteps config content (routers.map (fun r => (inst, r))) acc := by
  simp [GetTraefikRules.rules, runSteps, List.foldl_map]

theorem runSteps_append (config : Config) (content : String)
    (s t : List (TraefikInstance × TraefikRouter)) (acc : List DNSRecord) :
    runSteps config content (s ++ t) acc =
      runSteps config content t (runSteps config content s acc) := by
  simp [runSteps, List.foldl_append]

/-- With every router list decoded the pass returns, and its result is the
accumulator after the steps of the schedule. -/
theorem instances_decoded (config : Config) (currentIP : String)
    (lists : Nat → List TraefikRouter) (insts : List TraefikInstance) :
    ∀ (i : Nat) (acc : List DNSRecord),
      GetTraefikRules.instances config currentIP (fun j => some (lists j)) i insts acc =
        some (runSteps config (GetTraefikRules.content config currentIP)
          (schedule lists i insts) acc) := by
  induction insts with
  | nil => intro i acc; simp [GetTraefikRules.instances, schedule, runSteps]
  | cons inst rest ih =>
    intro i acc
    simp only [GetTraefikRules.instances, schedule, runSteps_append, ih, rules_eq_runSteps]

theorem getTraefikRules_decoded (config : Config) (currentIP : String)
    (lists : Nat → List TraefikRouter) (userRecords : List DNSRecord) :
    GetTraefikRules config currentIP (fun j => some (lists j)) userRecords =
      some (runSteps config (GetTraefikRules.content config currentIP)
        (schedule lists 0 config.TraefikInstances) userRecords) :=
  instances_decoded config currentIP lists config.TraefikInstances 0 userRecords

/-! ## Invariants of a sequence of steps -/

/-- The records a sequence of steps appends: each carries the content and the
configured defaults, and none is named like a record that precedes it. -/
theorem runSteps_added (config : Config) (content : String)
    (steps : List (TraefikInstance × TraefikRouter)) :
    ∀ acc : List DNSRecord, ∃ added : List DNSRecord,
      runSteps config content steps acc = acc ++ added ∧
      (∀ d ∈ added, d.Content = content ∧ d.«Type» = config.Cloudflare.Defaults.«Type» ∧
        d.Proxied = config.Cloudflare.Defaults.Proxied ∧
        d.TTL = config.Cloudflare.Defaults.TTL) ∧
      (∀ front d back, added = front ++ d :: back → ∀ r ∈ acc ++ front, r.Name ≠ d.Name) := by
  induction steps with
  | nil => intro acc; exact ⟨[], by simp [runSteps], by simp, by simp⟩
  | cons p rest ih =>
    intro acc
    have hstep : runSteps config content (p :: rest) acc =
        runSteps config content rest (GetTraefikRules.router config content p.1 acc p.2) := by
      simp [runSteps]
    rcases router_cases config content p.1 acc p.2 with hsame | ⟨h, -, hnew, -, happ⟩
    · rw [hstep, hsame]; exact ih acc
    · obtain ⟨added, hrun, hfields, hnames⟩ := ih (acc ++
        [{ «Type» := config.Cloudflare.Defaults.«Type», Name := h, Content := content,
           Proxied := config.Cloudflare.Defaults.Proxied,
           TTL := config.Cloudflare.Defaults.TTL }])
      refine ⟨{ «Type» := config.Cloudflare.Defaults.«Type», Name := h, Content := content,
                Proxied := config.Cloudflare.Defaults.Proxied,
                TTL := config.Cloudflare.Defaults.TTL } :: added, ?_, ?_, ?_⟩
      · rw [hstep, happ, hrun]; simp
      · intro d hd
        rcases List.mem_cons.1 hd with rfl | hd
        · exact ⟨rfl, rfl, rfl, rfl⟩
        · exact hfields d hd
      · intro front d back hsplit r hr
        cases front with
        | nil =>
          simp only [List.nil_append, List.cons.injEq] at hsplit
          rw [← hsplit.1]
          simp only [List.append_nil] at hr
          exact hnew r hr
        | cons x front' =>
          simp only [List.cons_append, List.cons.injEq] at hsplit
          apply hnames front' d back hsplit.2 r
          rw [← hsplit.1] at hr
          simpa using hr

/-- A step that ran on an accumulator changes nothing when it is run again on any
list that extends the accumulator it produced. -/
theorem router_absorbed (config : Config) (content : String) (inst : TraefikInstance)
    (acc : List DNSRecord) (router : TraefikRouter) (R : List DNSRecord)
    (hR : GetTraefikRules.router config content inst acc router <+: R) :
    GetTraefikRules.router config content inst R router = R := by
  cases hh : extractHostname router.Rule with
  | none => exact router_of_none hh
  | some h =>
    by_cases hi : ∃ ig ∈ inst.IgnoredRules, ig.data <:+: h.data
    · exact router_of_ignored hh hi
    · apply router_of_duplicate hh
      by_cases hd : ∃ r ∈ acc, r.Name = h
      · rw [router_of_duplicate hh hd] at hR
        obtain ⟨r, hr, hn⟩ := hd
        exact ⟨r, hR.subset hr, hn⟩
      · have hd' : ∀ r ∈ acc, r.Name ≠ h := fun r hr hn => hd ⟨r, hr, hn⟩
        have hi' : ∀ ig ∈ inst.IgnoredRules, ¬ ig.data <:+: h.data :=
          fun ig hig hn => hi ⟨ig, hig, hn⟩
        rw [router_of_accepted hh hd' hi'] at hR
        exact ⟨_, hR.subset (List.mem_append_right acc (List.mem_singleton_self _)), rfl⟩

theorem runSteps_absorbed (config : Config) (content : String)
    (steps : List (TraefikInstance × TraefikRouter)) :
    ∀ (acc R : List DNSRecord), runSteps config content steps acc <+: R →
      runSteps config content steps R = R := by
  induction steps with
  | nil => intro acc R _; simp [runSteps]
  | cons p rest ih =>
    intro acc R hR
    have hstep : ∀ a, runSteps config content (p :: rest) a =
        runSteps config content rest (GetTraefikRules.router config content p.1 a p.2) := by
      intro a; simp [runSteps]
    rw [hstep] at hR
    obtain ⟨added, hadd, -, -⟩ :=
      runSteps_added config content rest (GetTraefikRules.router config content p.1 acc p.2)
    have h1 : GetTraefikRules.router config content p.1 acc p.2 <+: R :=
      List.IsPrefix.trans ⟨added, hadd.symm⟩ hR
    rw [hstep, router_absorbed config content p.1 acc p.2 R h1]
    exact ih _ R hR

/-- Every record of the accumulator after a sequence of steps was in the
accumulator before it or was appended by a step whose rule yields its name and
whose instance does not ignore that name. -/
theorem runSteps_origin (config : Config) (content : String)
    (steps : List (TraefikInstance × TraefikRouter)) :
    ∀ (acc : List DNSRecord), ∀ d ∈ runSteps config content steps acc,
      d ∈ acc ∨ ∃ p ∈ steps, extractHostname p.2.Rule = some d.Name ∧
        ∀ ig ∈ p.1.IgnoredRules, ¬ ig.data <:+: d.Name.data := by
  induction steps with
  | nil => intro acc d hd; exact Or.inl (by simpa [runSteps] using hd)
  | cons p rest ih =>
    intro acc d hd
    have hstep : runSteps config content (p :: rest) acc =
        runSteps config content rest (GetTraefikRules.router config content p.1 acc p.2) := by
      simp [runSteps]
    rw [hstep] at hd
    rcases ih _ d hd with hmem | ⟨q, hq, hh, hi⟩
    · rcases router_cases config content p.1 acc p.2 with hsame | ⟨h, hh, -, hi, happ⟩
      · rw [hsame] at hmem; exact Or.inl hmem
      · rw [happ] at hmem
        rcases List.mem_append.1 hmem with hacc | hnew
        · exact Or.inl hacc
        · rw [List.mem_singleton] at hnew
          right
          refine ⟨p, List.mem_cons_self _ _, ?_, ?_⟩
          · rw [hnew]; exact hh
          · rw [hnew]; exact hi
    · exact Or.inr ⟨q, List.mem_cons_of_mem _ hq, hh, hi⟩

/-- After a sequence of steps the accumulator holds a record named by the hostname
of every step whose instance does not ignore that hostname. -/
theorem runSteps_covers (config : Config) (content : String) (h : String)
    (steps : List (TraefikInstance × TraefikRouter)) :
    ∀ (acc : List DNSRecord), ∀ p ∈ steps, extractHostname p.2.Rule = some h →
      (∀ ig ∈ p.1.IgnoredRules, ¬ ig.data <:+: h.data) →
      ∃ r ∈ runSteps config content steps acc, r.Name = h := by
  induction steps with
  | nil => intro acc p hp; exact absurd hp (List.not_mem_nil _)
  | cons q rest ih =>
    intro acc p hp hh hi
    have hstep : runSteps config content (q :: rest) acc =
        runSteps config content rest (GetTraefikRules.router config content q.1 acc q.2) := by
      simp [runSteps]
    rw [hstep]
    rcases List.mem_cons.1 hp with rfl | hp
    · obtain ⟨added, hadd, -, -⟩ := runSteps_added config content rest
        (GetTraefikRules.router config content p.1 acc p.2)
      rw [hadd]
      by_cases hd : ∃ r ∈ acc, r.Name = h
      · obtain ⟨r, hr, hn⟩ := hd
        rw [router_of_duplicate hh ⟨r, hr, hn⟩]
        exact ⟨r, List.mem_append_left _ hr, hn⟩
      · have hd' : ∀ r ∈ acc, r.Name ≠ h := fun r hr hn => hd ⟨r, hr, hn⟩
        rw [router_of_accepted hh hd' hi]
        exact ⟨_, List.mem_append_left _
          (List.mem_append_right _ (List.mem_singleton_self _)), rfl⟩
    · exact ih _ p hp hh hi

/-- Records of which none is named like an earlier one have pairwise distinct
names. -/
theorem nodup_names_of_fresh (l : List DNSRecord)
    (hfresh : ∀ front d back, l = front ++ d :: back → ∀ r ∈ front, r.Name ≠ d.Name) :
    (l.map (fun d => d.Name)).Nodup := by
  induction l using List.reverseRecOn with
  | nil => simp
  | append_singleton l a ih =>
    rw [List.map_append, List.nodup_append]
    refine ⟨ih ?_, by simp, ?_⟩
    · intro front d back hl r hr
      exact hfresh front d (back ++ [a]) (by rw [hl]; simp) r hr
    · intro n hn hn'
      obtain ⟨r, hr, rfl⟩ := List.mem_map.1 hn
      simp only [List.map_cons, List.map_nil, List.mem_singleton] at hn'
      exact hfresh l a [] rfl r hr hn'

theorem schedule_two (lists : Nat → List TraefikRouter) (inst1 inst2 : TraefikInstance) :
    schedule lists 0 [inst1, inst2] =
      (lists 0).map (fun r => (inst1, r)) ++ (lists 1).map (fun r => (inst2, r)) := by
  simp [schedule]

/-! ## The search of `regexp` and the language of an expression -/

namespace regexp

theorem starLoop_sound {r : Regexp} {step : List Char → Caps → Cont → Option Caps}
    (hstep : ∀ inp caps k res, step inp caps k = some res →
      ∃ u rest caps', Lang r u ∧ inp = u ++ rest ∧ k rest caps' = some res) :
    ∀ (n : Nat) (inp : List Char) (caps : Caps) (k : Cont) (res : Caps),
      starLoop step n inp caps k = some res →
      ∃ u rest caps', Lang (.star r) u ∧ inp = u ++ rest ∧ k rest caps' = some res := by
  intro n
  induction n with
  | zero =>
    intro inp caps k res h
    exact ⟨[], inp, caps, ⟨[], by simp, by simp⟩, by simp, h⟩
  | succ n ih =>
    intro inp caps k res h
    simp only [starLoop] at h
    split at h
    · rename_i res' hres
      obtain ⟨u, rest, caps', hu, hinp, hk⟩ := hstep _ _ _ _ hres
      split at hk
      · obtain ⟨v, rest', caps'', ⟨vs, hvs, hv⟩, hrest, hk'⟩ := ih _ _ _ _ hk
        refine ⟨u ++ v, rest', caps'', ⟨u :: vs, ?_, ?_⟩, ?_, ?_⟩
        · intro x hx
          rcases List.mem_cons.1 hx with rfl | hx
          · exact hu
          · exact hvs x hx
        · simp [hv]
        · simp [hinp, hrest]
        · simpa using h ▸ hk'
      · exact absurd hk (by simp)
    · exact ⟨[], inp, caps, ⟨[], by simp, by simp⟩, by simp, h⟩

/-- Soundness of the search: a success of `run r` consumed a text of the language
of `r` and handed the rest of the input to the continuation. -/
theorem run_sound : ∀ (r : Regexp) (inp : List Char) (caps : Caps) (k : Cont) (res : Caps),
    run r inp caps k = some res →
    ∃ u rest caps', Lang r u ∧ inp = u ++ rest ∧ k rest caps' = some res := by
  intro r
  induction r with
  | lit s =>
    intro inp caps k res h
    simp only [run] at h
    split at h
    · rename_i hp
      rw [List.isPrefixOf_iff_prefix, List.prefix_iff_eq_append] at hp
      exact ⟨s, inp.drop s.length, caps, rfl, hp.symm, h⟩
    · exact absurd h (by simp)
  | cls rs =>
    intro inp caps k res h
    cases inp with
    | nil => simp [run] at h
    | cons c rest =>
      simp only [run] at h
      split at h
      · rename_i hc
        exact ⟨[c], rest, caps, ⟨c, hc, rfl⟩, rfl, h⟩
      · exact absurd h (by simp)
  | cat r s ihr ihs =>
    intro inp caps k res h
    simp only [run] at h
    obtain ⟨u, rest, caps', hu, hinp, hk⟩ := ihr _ _ _ _ h
    obtain ⟨v, rest', caps'', hv, hrest, hk'⟩ := ihs _ _ _ _ hk
    exact ⟨u ++ v, rest', caps'', ⟨u, v, hu, hv, rfl⟩, by simp [hinp, hrest], hk'⟩
  | star r ih =>
    intro inp caps k res h
    simp only [run] at h
    exact starLoop_sound ih _ _ _ _ _ h
  | cap i r ih =>
    intro inp caps k res h
    simp only [run] at h
    obtain ⟨u, rest, caps', hu, hinp, hk⟩ := ih _ _ _ _ h
    exact ⟨u, rest, _, hu, hinp, hk⟩

/-- Soundness for a capture group: its slot holds the text the group matched. -/
theorem run_cap_sound (i : Nat) (r : Regexp) (inp : List Char) (caps : Caps) (k : Cont)
    (res : Caps) (h : run (.cap i r) inp caps k = some res) :
    ∃ u rest caps', Lang r u ∧ inp = u ++ rest ∧ k rest ((i, u) :: caps') = some res := by
  simp only [run] at h
  obtain ⟨u, rest, caps', hu, hinp, hk⟩ := run_sound r _ _ _ _ h
  refine ⟨u, rest, caps', hu, hinp, ?_⟩
  have ht : List.take (inp.length - rest.length) inp = u := by
    rw [hinp]; simp
  rw [ht] at hk
  exact hk

theorem starLoop_of_exit (step : List Char → Caps → Cont → Option Caps) (n : Nat)
    (inp : List Char) (caps : Caps) (k : Cont) (h : (k inp caps).isSome = true) :
    (starLoop step n inp caps k).isSome = true := by
  cases n with
  | zero => simpa [starLoop] using h
  | succ n =>
    simp only [starLoop]
    split
    · rfl
    · exact h

theorem starLoop_complete {r : Regexp} {step : List Char → Caps → Cont → Option Caps}
    (hstep : ∀ u rest caps k, Lang r u → (∀ caps', (k rest caps').isSome = true) →
      (step (u ++ rest) caps k).isSome = true)
    (rest : List Char) (k : Cont) (hk : ∀ caps', (k rest caps').isSome = true) :
    ∀ (us : List (List Char)) (n : Nat) (caps : Caps), (∀ u ∈ us, Lang r u) →
      (us.flatten ++ rest).length ≤ n →
      (starLoop step n (us.flatten ++ rest) caps k).isSome = true := by
  intro us
  induction us with
  | nil =>
    intro n caps _ _
    exact starLoop_of_exit step n _ caps k (by simpa using hk caps)
  | cons u us ih =>
    intro n caps hus hn
    have hus' : ∀ x ∈ us, Lang r x := fun x hx => hus x (List.mem_cons_of_mem _ hx)
    by_cases hu : u = []
    · subst hu
      simpa using ih n caps hus' (by simpa using hn)
    · have hpos : 0 < u.length := List.length_pos.2 hu
      cases n with
      | zero =>
        have hlen : 0 < ((u :: us).flatten ++ rest).length := by simp; omega
        omega
      | succ n =>
        simp only [starLoop]
        have hfirst := hstep u (us.flatten ++ rest) caps
          (fun inp' caps' =>
            if inp'.length < ((u :: us).flatten ++ rest).length then
              starLoop step n inp' caps' k
            else none)
          (hus u (List.mem_cons_self _ _))
          (by
            intro caps'
            have hlt : (us.flatten ++ rest).length < ((u :: us).flatten ++ rest).length := by
              simp; omega
            simp only [hlt, if_true]
            apply ih n caps' hus'
            simp at hn ⊢; omega)
        have heq : (u :: us).flatten ++ rest = u ++ (us.flatten ++ rest) := by simp
        rw [← heq] at hfirst
        split
        · rfl
        · rename_i hnone
          rw [hnone] at hfirst
          exact absurd hfirst (by simp)

/-- Completeness of the search: when the input begins with a text of the language
of `r` after which the continuation succeeds whatever the capture slots, `run r`
succeeds. -/
theorem run_complete : ∀ (r : Regexp) (u rest : List Char) (caps : Caps) (k : Cont),
    Lang r u → (∀ caps', (k rest caps').isSome = true) →
    (run r (u ++ rest) caps k).isSome = true := by
  intro r
  induction r with
  | lit s =>
    intro u rest caps k hu hk
    simp only [Lang] at hu
    subst hu
    have hp : u.isPrefixOf (u ++ rest) = true := by
      rw [List.isPrefixOf_iff_prefix]; exact List.prefix_append _ _
    simp only [run, hp, if_true, List.drop_left]
    exact hk caps
  | cls rs =>
    intro u rest caps k hu hk
    obtain ⟨c, hc, rfl⟩ := hu
    simp only [run, List.singleton_append, hc, if_true]
    exact hk caps
  | cat r s ihr ihs =>
    intro u rest caps k hu hk
    obtain ⟨a, b, ha, hb, rfl⟩ := hu
    simp only [run, List.append_assoc]
    exact ihr a (b ++ rest) caps _ ha (fun caps' => ihs b rest caps' k hb hk)
  | star r ih =>
    intro u rest caps k hu hk
    obtain ⟨us, hus, rfl⟩ := hu
    simp only [run]
    exact starLoop_complete ih rest k hk us _ caps hus (le_refl _)
  | cap i r ih =>
    intro u rest caps k hu hk
    simp only [run]
    exact ih u rest caps _ hu (fun caps' => hk _)

/-- The unanchored search finds a match that begins at a suffix of the input, and
no match begins at a longer suffix. -/
theorem find_some (re : Regexp) : ∀ (s : List Char) (caps : Caps), find re s = some caps →
    ∃ front inp, s = front ++ inp ∧ matchHere re inp = some caps ∧
      ∀ front' inp', s = front' ++ inp' → front'.length < front.length →
        matchHere re inp' = none := by
  intro s
  induction s with
  | nil =>
    intro caps h
    exact ⟨[], [], rfl, by simpa [find] using h, fun f i _ hlt => by simp at hlt⟩
  | cons c cs ih =>
    intro caps h
    simp only [find] at h
    split at h
    · rename_i res hres
      refine ⟨[], c :: cs, rfl, ?_, fun f i _ hlt => by simp at hlt⟩
      rw [hres, h]
    · rename_i hnone
      obtain ⟨front, inp, hs, hm, hleft⟩ := ih caps h
      refine ⟨c :: front, inp, by simp [hs], hm, ?_⟩
      intro front' inp' hs' hlt
      cases front' with
      | nil => simp only [List.nil_append] at hs'; rw [← hs']; exact hnone
      | cons x front'' =>
        simp only [List.cons_append, List.cons.injEq] at hs'
        exact hleft front'' inp' hs'.2 (by simpa using hlt)

theorem find_none (re : Regexp) : ∀ (s : List Char), find re s = none →
    ∀ front inp, s = front ++ inp → matchHere re inp = none := by
  intro s
  induction s with
  | nil =>
    intro h front inp hs
    have : front = [] ∧ inp = [] := by simpa using hs.symm
    rw [this.2]; simpa [find] using h
  | cons c cs ih =>
    intro h front inp hs
    simp only [find] at h
    split at h
    · exact absurd h (by simp)
    · rename_i hnone
      cases front with
      | nil => simp only [List.nil_append] at hs; rw [← hs]; exact hnone
      | cons x front' =>
        simp only [List.cons_append, List.cons.injEq] at hs
        exact ih h front' inp hs.2

end regexp

/-! ## The language of the pattern is the hostname grammar -/

theorem exists_map_of_forall {α β : Type} (P : β → Prop) (f : β → α) :
    ∀ us : List α, (∀ u ∈ us, ∃ x, P x ∧ u = f x) →
      ∃ xs : List β, (∀ x ∈ xs, P x) ∧ us = xs.map f := by
  intro us
  induction us with
  | nil => intro _; exact ⟨[], by simp, rfl⟩
  | cons u us ih =>
    intro h
    obtain ⟨x, hx, rfl⟩ := h u (List.mem_cons_self _ _)
    obtain ⟨xs, hxs, rfl⟩ := ih (fun v hv => h v (List.mem_cons_of_mem _ hv))
    refine ⟨x :: xs, ?_, rfl⟩
    intro y hy
    rcases List.mem_cons.1 hy with rfl | hy
    · exact hx
    · exact hxs y hy

theorem intercalate_cons {α : Type} (sep x : List α) (xs : List (List α)) :
    List.intercalate sep (x :: xs) = x ++ (xs.map (fun y => sep ++ y)).flatten := by
  induction xs generalizing x with
  | nil => simp [List.intercalate]
  | cons y ys ih =>
    have h := ih y
    simp only [List.intercalate] at h ⊢
    simp [List.intersperse, h]

theorem inClass_alnum (c : Char) :
    regexp.inClass [('a', 'z'), ('0', '9')] c = true ↔ IsLowerOrDigit c := by
  simp [regexp.inClass, IsLowerOrDigit]

theorem inClass_lower (c : Char) : regexp.inClass [('a', 'z')] c = true ↔ IsLower c := by
  simp [regexp.inClass, IsLower]

theorem lang_star_cls (rs : List (Char × Char)) (w : List Char) :
    regexp.Lang (.star (.cls rs)) w ↔ ∀ c ∈ w, regexp.inClass rs c = true := by
  constructor
  · rintro ⟨us, hus, rfl⟩ c hc
    obtain ⟨u, hu, hcu⟩ := List.mem_flatten.1 hc
    obtain ⟨d, hd, rfl⟩ := hus u hu
    rw [List.mem_singleton] at hcu
    rw [hcu]; exact hd
  · intro h
    refine ⟨w.map (fun c => [c]), ?_, ?_⟩
    · intro u hu
      obtain ⟨c, hc, rfl⟩ := List.mem_map.1 hu
      exact ⟨c, h c hc, rfl⟩
    · induction w with
      | nil => rfl
      | cons c w ih => simp [← ih (fun d hd => h d (List.mem_cons_of_mem _ hd))]

theorem lang_plus (r : regexp.Regexp) (w : List Char) :
    regexp.Lang r.plus w ↔
      ∃ us : List (List Char), us ≠ [] ∧ (∀ u ∈ us, regexp.Lang r u) ∧ w = us.flatten := by
  constructor
  · rintro ⟨u, v, hu, ⟨vs, hvs, rfl⟩, rfl⟩
    refine ⟨u :: vs, by simp, ?_, by simp⟩
    intro x hx
    rcases List.mem_cons.1 hx with rfl | hx
    · exact hu
    · exact hvs x hx
  · rintro ⟨us, hne, hus, rfl⟩
    cases us with
    | nil => exact absurd rfl hne
    | cons u vs =>
      exact ⟨u, vs.flatten, hus u (List.mem_cons_self _ _),
        ⟨vs, fun x hx => hus x (List.mem_cons_of_mem _ hx), rfl⟩, by simp⟩

theorem lang_alnum_plus (w : List Char) : regexp.Lang alnum.plus w ↔ IsRun w := by
  constructor
  · rintro ⟨u, v, ⟨c, hc, rfl⟩, hv, rfl⟩
    refine ⟨by simp, ?_⟩
    intro d hd
    rcases List.mem_cons.1 hd with rfl | hd
    · exact (inClass_alnum _).1 hc
    · exact (inClass_alnum d).1 ((lang_star_cls _ v).1 hv d hd)
  · rintro ⟨hne, hw⟩
    cases w with
    | nil => exact absurd rfl hne
    | cons c v =>
      refine ⟨[c], v, ⟨c, (inClass_alnum c).2 (hw c (List.mem_cons_self _ _)), rfl⟩, ?_, rfl⟩
      exact (lang_star_cls _ v).2
        (fun d hd => (inClass_alnum d).2 (hw d (List.mem_cons_of_mem _ hd)))

theorem lang_lower_atLeastTwo (w : List Char) :
    regexp.Lang lower.atLeastTwo w ↔ IsFinalLabel w := by
  constructor
  · rintro ⟨u, v, ⟨c, hc, rfl⟩, ⟨u', v', ⟨c', hc', rfl⟩, hv, rfl⟩, rfl⟩
    refine ⟨by simp, ?_⟩
    intro d hd
    simp only [List.singleton_append, List.mem_cons] at hd
    rcases hd with rfl | rfl | hd
    · exact (inClass_lower _).1 hc
    · exact (inClass_lower _).1 hc'
    · exact (inClass_lower d).1 ((lang_star_cls _ v').1 hv d hd)
  · rintro ⟨hlen, hw⟩
    match w, hlen, hw with
    | c :: c' :: v, _, hw =>
      refine ⟨[c], c' :: v, ⟨c, (inClass_lower c).2 (hw c (by simp)), rfl⟩,
        ⟨[c'], v, ⟨c', (inClass_lower c').2 (hw c' (by simp)), rfl⟩, ?_, rfl⟩, rfl⟩
      exact (lang_star_cls _ v).2 (fun d hd => (inClass_lower d).2 (hw d (by simp [hd])))

theorem lang_hyphenRun (w : List Char) :
    regexp.Lang hyphenRun w ↔ ∃ run, IsRun run ∧ w = '-' :: run := by
  constructor
  · rintro ⟨u, v, hu, hv, rfl⟩
    simp only [regexp.Lang] at hu
    subst hu
    exact ⟨v, (lang_alnum_plus v).1 hv, rfl⟩
  · rintro ⟨run, hrun, rfl⟩
    exact ⟨['-'], run, rfl, (lang_alnum_plus run).2 hrun, rfl⟩

theorem lang_dottedLabel (w : List Char) :
    regexp.Lang dottedLabel w ↔ ∃ l, IsLabel l ∧ w = l ++ ['.'] := by
  constructor
  · rintro ⟨u, v, hu, ⟨a, b, ⟨us, hus, rfl⟩, hb, rfl⟩, rfl⟩
    simp only [regexp.Lang] at hb
    subst hb
    obtain ⟨runs, hruns, rfl⟩ := exists_map_of_forall IsRun (fun r => '-' :: r) us
      (fun x hx => (lang_hyphenRun x).1 (hus x hx))
    refine ⟨List.intercalate ['-'] (u :: runs), ⟨u :: runs, by simp, ?_, rfl⟩, ?_⟩
    · intro r hr
      rcases List.mem_cons.1 hr with rfl | hr
      · exact (lang_alnum_plus _).1 hu
      · exact hruns r hr
    · rw [intercalate_cons]; simp
  · rintro ⟨l, ⟨runs, hne, hruns, rfl⟩, rfl⟩
    cases runs with
    | nil => exact absurd rfl hne
    | cons r0 rest =>
      refine ⟨r0, (rest.map (fun r => '-' :: r)).flatten ++ ['.'],
        (lang_alnum_plus r0).2 (hruns r0 (List.mem_cons_self _ _)),
        ⟨(rest.map (fun r => '-' :: r)).flatten, ['.'],
          ⟨rest.map (fun r => '-' :: r), ?_, rfl⟩, rfl, rfl⟩, ?_⟩
      · intro x hx
        obtain ⟨r, hr, rfl⟩ := List.mem_map.1 hx
        exact (lang_hyphenRun _).2 ⟨r, hruns r (List.mem_cons_of_mem _ hr), rfl⟩
      · rw [intercalate_cons]; simp

/-- The inside of group 1 matches exactly the well-formed hostnames. -/
theorem lang_hostExpr (h : List Char) : regexp.Lang hostExpr h ↔ IsHostname h := by
  constructor
  · rintro ⟨u, v, hu, hv, rfl⟩
    obtain ⟨us, hne, hus, rfl⟩ := (lang_plus dottedLabel u).1 hu
    obtain ⟨labels, hlabels, rfl⟩ := exists_map_of_forall IsLabel (fun l => l ++ ['.']) us
      (fun x hx => (lang_dottedLabel x).1 (hus x hx))
    refine ⟨labels, v, ?_, hlabels, (lang_lower_atLeastTwo v).1 hv, rfl⟩
    intro hnil; apply hne; simp [hnil]
  · rintro ⟨labels, final, hne, hlabels, hfinal, rfl⟩
    refine ⟨_, final, (lang_plus dottedLabel _).2
      ⟨labels.map (fun l => l ++ ['.']), ?_, ?_, rfl⟩,
      (lang_lower_atLeastTwo final).2 hfinal, rfl⟩
    · intro hnil; apply hne; simpa using hnil
    · intro x hx
      obtain ⟨l, hl, rfl⟩ := List.mem_map.1 hx
      exact (lang_dottedLabel _).2 ⟨l, hlabels l hl, rfl⟩

/-! ## What the pattern of line 82 extracts -/

theorem isLabel_chars {l : List Char} (hl : IsLabel l) :
    ∀ c ∈ l, IsLowerOrDigit c ∨ c = '-' := by
  obtain ⟨runs, hne, hruns, rfl⟩ := hl
  cases runs with
  | nil => exact absurd rfl hne
  | cons r0 rest =>
    rw [intercalate_cons]
    intro c hc
    rcases List.mem_append.1 hc with hc | hc
    · exact Or.inl ((hruns r0 (List.mem_cons_self _ _)).2 c hc)
    · obtain ⟨x, hx, hcx⟩ := List.mem_flatten.1 hc
      obtain ⟨r, hr, rfl⟩ := List.mem_map.1 hx
      rcases List.mem_append.1 hcx with hc' | hc'
      · exact Or.inr (List.mem_singleton.1 hc')
      · exact Or.inl ((hruns r (List.mem_cons_of_mem _ hr)).2 c hc')

/-- A well-formed hostname holds lowercase letters, digits, hyphens and dots only. -/
theorem isHostname_chars {h : List Char} (hh : IsHostname h) :
    ∀ c ∈ h, IsLowerOrDigit c ∨ c = '-' ∨ c = '.' := by
  obtain ⟨labels, final, -, hlabels, hfinal, rfl⟩ := hh
  intro c hc
  rcases List.mem_append.1 hc with hc | hc
  · obtain ⟨x, hx, hcx⟩ := List.mem_flatten.1 hc
    obtain ⟨l, hl, rfl⟩ := List.mem_map.1 hx
    rcases List.mem_append.1 hcx with hc' | hc'
    · rcases isLabel_chars (hlabels l hl) c hc' with h1 | h1
      · exact Or.inl h1
      · exact Or.inr (Or.inl h1)
    · exact Or.inr (Or.inr (List.mem_singleton.1 hc'))
  · exact Or.inl (Or.inl (hfinal.2 c hc))

theorem backquote_not_mem {h : List Char} (hh : IsHostname h) : backquote ∉ h := by
  intro hmem
  rcases isHostname_chars hh backquote hmem with h1 | h1 | h1
  · revert h1; unfold IsLowerOrDigit backquote; decide
  · revert h1; unfold backquote; decide
  · revert h1; unfold backquote; decide

/-- Two texts free of a character that are followed by that character in the same
list are equal. -/
theorem eq_of_append_cons_eq {α : Type} {a : α} :
    ∀ {u v x y : List α}, a ∉ u → a ∉ v → u ++ a :: x = v ++ a :: y → u = v ∧ x = y := by
  intro u
  induction u with
  | nil =>
    intro v x y _ hv h
    cases v with
    | nil => simpa using h
    | cons b v =>
      simp only [List.nil_append, List.cons_append, List.cons.injEq] at h
      exact absurd (h.1 ▸ List.mem_cons_self _ _) hv
  | cons c u ih =>
    intro v x y hu hv h
    cases v with
    | nil =>
      simp only [List.nil_append, List.cons_append, List.cons.injEq] at h
      exact absurd (h.1 ▸ List.mem_cons_self _ _) hu
    | cons b v =>
      simp only [List.cons_append, List.cons.injEq] at h
      obtain ⟨hcb, hrest⟩ := h
      have := ih (fun hm => hu (List.mem_cons_of_mem _ hm))
        (fun hm => hv (List.mem_cons_of_mem _ hm)) hrest
      exact ⟨by rw [hcb, this.1], this.2⟩

/-- A clause determines its hostname: the text up to the first backquote. -/
theorem hostClause_inj {h h' rest rest' : List Char} (hh : IsHostname h)
    (hh' : IsHostname h') (heq : hostClause h ++ rest = hostClause h' ++ rest') :
    h = h' ∧ rest = rest' := by
  simp only [hostClause, hostOpen, hostClose, List.append_assoc, List.cons_append,
    List.nil_append, List.cons.injEq, true_and] at heq
  have := eq_of_append_cons_eq (backquote_not_mem hh) (backquote_not_mem hh') heq
  exact ⟨this.1, by simpa using this.2⟩

theorem re_eq : re = .cat (.lit hostOpen) (.cat (.cap 1 hostExpr) (.lit hostClose)) := rfl

theorem run_lit_some {s inp : List Char} {caps res : regexp.Caps} {k : regexp.Cont}
    (h : regexp.run (.lit s) inp caps k = some res) :
    ∃ rest, inp = s ++ rest ∧ k rest caps = some res := by
  have h' : (if s.isPrefixOf inp = true then k (inp.drop s.length) caps else none)
      = some res := h
  split at h'
  · rename_i hp
    rw [List.isPrefixOf_iff_prefix, List.prefix_iff_eq_append] at hp
    exact ⟨inp.drop s.length, hp.symm, h'⟩
  · exact absurd h' (by simp)

/-- A match that begins at the head of the input is a clause with a well-formed
hostname, and slot 1 holds that hostname. -/
theorem matchHere_sound {inp : List Char} {caps : regexp.Caps}
    (h : regexp.matchHere re inp = some caps) :
    ∃ host rest, IsHostname host ∧ inp = hostClause host ++ rest ∧
      caps.lookup 1 = some host := by
  have h1 : regexp.run (.lit hostOpen) inp []
      (fun inp1 caps1 => regexp.run (.cap 1 hostExpr) inp1 caps1
        (fun inp2 caps2 => regexp.run (.lit hostClose) inp2 caps2
          (fun inp3 caps3 =>
            some ((0, inp.take (inp.length - inp3.length)) :: caps3)))) = some caps := h
  obtain ⟨rest1, hinp1, h2⟩ := run_lit_some h1
  obtain ⟨host, rest2, caps2, hhost, hinp2, h3⟩ := regexp.run_cap_sound 1 hostExpr _ _ _ _ h2
  obtain ⟨rest3, hinp3, h4⟩ := run_lit_some h3
  simp only [Option.some.injEq] at h4
  refine ⟨host, rest3, (lang_hostExpr host).1 hhost, ?_, ?_⟩
  · rw [hinp1, hinp2, hinp3]; simp [hostClause]
  · rw [← h4]; simp [List.lookup]

/-- The pattern matches at the head of every input that begins with a clause with
a well-formed hostname. -/
theorem matchHere_complete {host : List Char} (hh : IsHostname host) (rest : List Char) :
    (regexp.matchHere re (hostClause host ++ rest)).isSome = true := by
  unfold regexp.matchHere
  have hlang : regexp.Lang (.cap 0 re) (hostClause host) := by
    rw [re_eq]
    exact ⟨hostOpen, host ++ hostClose, rfl,
      ⟨host, hostClose, (lang_hostExpr host).2 hh, rfl, rfl⟩, by simp [hostClause]⟩
  exact regexp.run_complete _ _ rest [] _ hlang (fun _ => rfl)

theorem numSubexp_re : re.NumSubexp = 3 := by decide

theorem extractHostname_of_find {rule : String} {caps : regexp.Caps}
    (h : regexp.find re rule.data = some caps) :
    extractHostname rule = some (String.mk ((caps.lookup 1).getD [])) := by
  simp [extractHostname, regexp.MatchString, regexp.FindStringSubmatch, h, numSubexp_re,
    List.range_succ, regexp.submatch]

theorem extractHostname_of_find_none {rule : String}
    (h : regexp.find re rule.data = none) : extractHostname rule = none := by
  simp [extractHostname, regexp.MatchString, h]

/-- The index `[1]` of line 96 is in range: a match has the four entries of the
whole match and the three groups. -/
theorem findStringSubmatch_length (rule : String)
    (h : regexp.MatchString re rule = true) :
    (regexp.FindStringSubmatch re rule).length = 4 := by
  unfold regexp.MatchString at h
  unfold regexp.FindStringSubmatch
  cases hf : regexp.find re rule.data with
  | none => rw [hf] at h; exact absurd h (by simp)
  | some caps => simp [numSubexp_re]

/-- An extracted hostname is the hostname of a clause of the rule, and no clause
with a well-formed hostname begins before that clause. -/
theorem extractHostname_some {rule x : String} (h : extractHostname rule = some x) :
    ∃ front host rest, IsHostname host ∧ rule.data = front ++ hostClause host ++ rest ∧
      x = String.mk host ∧
      ∀ front' host' rest', IsHostname host' →
        rule.data = front' ++ hostClause host' ++ rest' → front.length ≤ front'.length := by
  cases hf : regexp.find re rule.data with
  | none => rw [extractHostname_of_find_none hf] at h; exact absurd h (by simp)
  | some caps =>
    rw [extractHostname_of_find hf] at h
    obtain ⟨front, inp, hs, hm, hleft⟩ := regexp.find_some re _ _ hf
    obtain ⟨host, rest, hhost, hinp, hcap⟩ := matchHere_sound hm
    refine ⟨front, host, rest, hhost, by rw [hs, hinp]; simp, ?_, ?_⟩
    · rw [hcap] at h; simpa using h.symm
    · intro front' host' rest' hhost' hs'
      by_contra hlt
      have hnone := hleft front' (hostClause host' ++ rest') (by rw [hs']; simp)
        (Nat.lt_of_not_le hlt)
      have hsome := matchHere_complete hhost' rest'
      rw [hnone] at hsome
      exact absurd hsome (by simp)

/-- A rule with no clause with a well-formed hostname yields no hostname. -/
theorem extractHostname_none {rule : String}
    (h : ∀ front host rest, IsHostname host → rule.data ≠ front ++ hostClause host ++ rest) :
    extractHostname rule = none := by
  cases hx : extractHostname rule with
  | none => rfl
  | some x =>
    obtain ⟨front, host, rest, hhost, hs, -, -⟩ := extractHostname_some hx
    exact absurd hs (h front host rest hhost)

/-- The hostname of the leftmost clause is the one extracted. -/
theorem extractHostname_leftmost {rule : String} {front host rest : List Char}
    (hhost : IsHostname host) (hs : rule.data = front ++ hostClause host ++ rest)
    (hleft : ∀ front' host' rest', IsHostname host' →
      rule.data = front' ++ hostClause host' ++ rest' → front.length ≤ front'.length) :
    extractHostname rule = some (String.mk host) := by
  cases hf : regexp.find re rule.data with
  | none =>
    have hnone := regexp.find_none re _ hf front (hostClause host ++ rest)
      (by rw [hs]; simp)
    have hsome := matchHere_complete hhost rest
    rw [hnone] at hsome
    exact absurd hsome (by simp)
  | some caps =>
    have hx := extractHostname_of_find hf
    obtain ⟨front0, host0, rest0, hhost0, hs0, hx0, hleft0⟩ := extractHostname_some hx
    have hlen : front0.length = front.length :=
      Nat.le_antisymm (hleft0 front host rest hhost hs) (hleft front0 host0 rest0 hhost0 hs0)
    have heq : front0 ++ (hostClause host0 ++ rest0) = front ++ (hostClause host ++ rest) := by
      rw [← List.append_assoc, ← List.append_assoc, ← hs0, ← hs]
    have hparts := List.append_inj heq hlen
    have hhosts := hostClause_inj hhost0 hhost hparts.2
    rw [hx, hx0, hhosts.1]

/-! ## Locating clauses in a concrete rule -/

/-- When `Host(` with its backquote begins at one position of a text only, every
clause of the text begins there. -/
theorem clause_front_length {s front' host' rest' : List Char} {n : Nat}
    (honce : ∀ m ∈ List.range (s.length + 1),
      hostOpen.isPrefixOf (s.drop m) = true → m = n)
    (hs : s = front' ++ hostClause host' ++ rest') : front'.length = n := by
  apply honce front'.length
  · rw [List.mem_range, hs]; simp; omega
  · rw [hs, List.isPrefixOf_iff_prefix]
    simp only [List.append_assoc, List.drop_left, hostClause]
    exact List.prefix_append _ _

/-- When `Host(` with its backquote begins at no position before `n`, every clause
of the text begins at `n` or later. -/
theorem clause_front_length_ge {s front' host' rest' : List Char} {n : Nat}
    (hleft : ∀ m ∈ List.range (s.length + 1),
      hostOpen.isPrefixOf (s.drop m) = true → n ≤ m)
    (hs : s = front' ++ hostClause host' ++ rest') : n ≤ front'.length := by
  apply hleft front'.length
  · rw [List.mem_range, hs]; simp; omega
  · rw [hs, List.isPrefixOf_iff_prefix]
    simp only [List.append_assoc, List.drop_left, hostClause]
    exact List.prefix_append _ _

theorem hostOpen_infix_of_clause {s front host rest : List Char}
    (hs : s = front ++ hostClause host ++ rest) : hostOpen <:+: s :=
  ⟨front, host ++ hostClose ++ rest, by rw [hs]; simp [hostClause]⟩

/-! ## Properties of the reconciliation pass -/

/-- C3: `checkDuplicateRule rule rules` is true exactly when some record of `rules`
has a `Name` equal to `rule` as a string; it is false for the empty list, two
lists with the same names in the same order give the same answer, and neither a
difference of case nor a trailing dot is bridged. -/
theorem checkDuplicateRule_exact_name :
    (∀ (rule : String) (rules : List DNSRecord),
      checkDuplicateRule rule rules = true ↔ ∃ r ∈ rules, r.Name = rule) ∧
    (∀ rule : String, checkDuplicateRule rule [] = false) ∧
    (∀ (rule : String) (rules rules' : List DNSRecord),
      rules.map (fun r => r.Name) = rules'.map (fun r => r.Name) →
      checkDuplicateRule rule rules = checkDuplicateRule rule rules') ∧
    (∀ (t c : String) (p : Bool) (ttl : Int),
      checkDuplicateRule "App.example.com"
        [{ «Type» := t, Name := "app.example.com", Content := c, Proxied := p, TTL := ttl }]
        = false ∧
      checkDuplicateRule "app.example.com."
        [{ «Type» := t, Name := "app.example.com", Content := c, Proxied := p, TTL := ttl }]
        = false) := by
  refine ⟨checkDuplicateRule_iff, fun _ => rfl, ?_, ?_⟩
  · intro rule rules rules' hnames
    have key : ∀ l : List DNSRecord,
        checkDuplicateRule rule l = decide (rule ∈ l.map (fun r => r.Name)) := by
      intro l
      rw [Bool.eq_iff_iff, checkDuplicateRule_iff]
      simp
    rw [key, key, hnames]
  · intro t c p ttl
    constructor
    · rw [checkDuplicateRule_eq_false]
      intro r hr
      rw [List.mem_singleton] at hr
      rw [hr]; show "app.example.com" ≠ _; decide
    · rw [checkDuplicateRule_eq_false]
      intro r hr
      rw [List.mem_singleton] at hr
      rw [hr]; show "app.example.com" ≠ _; decide

/-- Witness of C3: a record named `app.example.com` makes that name a duplicate,
whatever its other fields, and a second list with the same names answers alike. -/
theorem checkDuplicateRule_exact_name_witness :
    checkDuplicateRule "app.example.com"
      [{ «Type» := "A", Name := "www.example.com", Content := "203.0.113.5",
         Proxied := true, TTL := 1 },
       { «Type» := "A", Name := "app.example.com", Content := "203.0.113.5",
         Proxied := true, TTL := 1 }] = true ∧
    checkDuplicateRule "app.example.com"
      [{ «Type» := "A", Name := "www.example.com", Content := "203.0.113.5",
         Proxied := true, TTL := 1 },
       { «Type» := "A", Name := "app.example.com", Content := "203.0.113.5",
         Proxied := true, TTL := 1 }] =
    checkDuplicateRule "app.example.com"
      [{ «Type» := "CNAME", Name := "www.example.com", Content := "example.com",
         Proxied := false, TTL := 300 },
       { «Type» := "CNAME", Name := "app.example.com", Content := "example.com",
         Proxied := false, TTL := 300 }] :=
  ⟨(checkDuplicateRule_exact_name.1 _ _).2
     ⟨{ «Type» := "A", Name := "app.example.com", Content := "203.0.113.5",
        Proxied := true, TTL := 1 }, by simp, rfl⟩,
   checkDuplicateRule_exact_name.2.2.1 _ _ _ rfl⟩

/-- C1: when a router's rule yields the hostname `h`, no record of the accumulator
is named `h` and `h` contains no entry of the instance's `IgnoredRules`, the step
for that router appends exactly one descriptor at the end: named `h`, with the
configured default type, proxied flag and TTL.  With one instance, an empty ignore
list, no records and the single rule `Host(app.example.com)` (hostname in
backquotes) the pass returns one descriptor named `app.example.com`. -/
theorem acceptance_appends_one_descriptor :
    (∀ (config : Config) (currentIP : String) (inst : TraefikInstance)
        (router : TraefikRouter) (acc : List DNSRecord) (h : String),
      extractHostname router.Rule = some h →
      (∀ r ∈ acc, r.Name ≠ h) →
      (∀ ig ∈ inst.IgnoredRules, ¬ ig.data <:+: h.data) →
      GetTraefikRules.router config (GetTraefikRules.content config currentIP) inst acc router =
        acc ++ [{ «Type» := config.Cloudflare.Defaults.«Type», Name := h,
                  Content := GetTraefikRules.content config currentIP,
                  Proxied := config.Cloudflare.Defaults.Proxied,
                  TTL := config.Cloudflare.Defaults.TTL }]) ∧
    (∀ (config : Config) (currentIP : String)
        (responses : Nat → Option (List TraefikRouter)) (inst : TraefikInstance)
        (router : TraefikRouter),
      config.TraefikInstances = [inst] → inst.IgnoredRules = [] →
      responses 0 = some [router] → router.Rule = "Host(`app.example.com`)" →
      GetTraefikRules config currentIP responses [] =
        some [{ «Type» := config.Cloudflare.Defaults.«Type», Name := "app.example.com",
                Content := GetTraefikRules.content config currentIP,
                Proxied := config.Cloudflare.Defaults.Proxied,
                TTL := config.Cloudflare.Defaults.TTL }]) := by
  constructor
  · intro config currentIP inst router acc h hh hd hi
    exact router_of_accepted hh hd hi
  · intro config currentIP responses inst router hinsts hign hresp hrule
    have hh : extractHostname router.Rule = some "app.example.com" := by
      rw [hrule]; decide
    have hstep := @router_of_accepted config (GetTraefikRules.content config currentIP)
      inst [] router "app.example.com" hh (by simp) (by simp [hign])
    simp only [GetTraefikRules, hinsts, GetTraefikRules.instances, hresp,
      GetTraefikRules.rules, List.foldl_cons, List.foldl_nil, hstep, List.nil_append]

/-- Witness of C1 (scenario 1): default type `A`, address `203.0.113.5`, one
instance without ignore entries, no records, one router. -/
theorem acceptance_appends_one_descriptor_witness :
    extractHostname (routerWithRule "Host(`app.example.com`)").Rule =
      some "app.example.com" ∧
    GetTraefikRules.router (sampleConfig [instanceIgnoring "edge" []] "A")
      (GetTraefikRules.content (sampleConfig [instanceIgnoring "edge" []] "A") "203.0.113.5")
      (instanceIgnoring "edge" []) [] (routerWithRule "Host(`app.example.com`)") =
      [] ++ [{ «Type» := "A", Name := "app.example.com", Content := "203.0.113.5",
               Proxied := true, TTL := 1 }] ∧
    GetTraefikRules (sampleConfig [instanceIgnoring "edge" []] "A") "203.0.113.5"
      (fun _ => some [routerWithRule "Host(`app.example.com`)"]) [] =
      some [{ «Type» := "A", Name := "app.example.com", Content := "203.0.113.5",
              Proxied := true, TTL := 1 }] :=
  ⟨by decide,
   acceptance_appends_one_descriptor.1 (sampleConfig [instanceIgnoring "edge" []] "A")
     "203.0.113.5" (instanceIgnoring "edge" []) (routerWithRule "Host(`app.example.com`)")
     [] "app.example.com" (by decide) (by simp) (by simp [instanceIgnoring]),
   acceptance_appends_one_descriptor.2 (sampleConfig [instanceIgnoring "edge" []] "A")
     "203.0.113.5" (fun _ => some [routerWithRule "Host(`app.example.com`)"])
     (instanceIgnoring "edge" []) (routerWithRule "Host(`app.example.com`)")
     rfl rfl rfl rfl⟩

/-- C2: with every router list decoded, the pass returns the input followed by the
descriptors it appended, and each of them has `Content` equal to `currentIP` when
the default type is `A`, to the zone name when it is `CNAME` and to the empty
string for every other type; all of them have the same `Content`. -/
theorem content_follows_default_type (config : Config) (currentIP : String)
    (lists : Nat → List TraefikRouter) (userRecords : List DNSRecord) :
    ∃ added : List DNSRecord,
      GetTraefikRules config currentIP (fun i => some (lists i)) userRecords =
        some (userRecords ++ added) ∧
      ∀ d ∈ added,
        (config.Cloudflare.Defaults.«Type» = "A" → d.Content = currentIP) ∧
        (config.Cloudflare.Defaults.«Type» = "CNAME" →
          d.Content = config.Cloudflare.ZoneName) ∧
        (config.Cloudflare.Defaults.«Type» ≠ "A" →
          config.Cloudflare.Defaults.«Type» ≠ "CNAME" → d.Content = "") ∧
        (∀ d' ∈ added, d'.Content = d.Content) := by
  obtain ⟨added, hrun, hfields, -⟩ :=
    runSteps_added config (GetTraefikRules.content config currentIP)
      (schedule lists 0 config.TraefikInstances) userRecords
  refine ⟨added, by rw [getTraefikRules_decoded, hrun], ?_⟩
  intro d hd
  have hc := (hfields d hd).1
  refine ⟨?_, ?_, ?_, ?_⟩
  · intro ht; rw [hc]; simp [GetTraefikRules.content, ht]
  · intro ht
    have hne : config.Cloudflare.Defaults.«Type» ≠ "A" := by rw [ht]; decide
    rw [hc]; simp [GetTraefikRules.content, ht, hne]
  · intro h1 h2; rw [hc]; simp [GetTraefikRules.content, h1, h2]
  · intro d' hd'; rw [hc, (hfields d' hd').1]

/-- Witness of C2 (scenario 4): default type `CNAME`, zone `example.com` and the
rule `Host(www.example.com)` give the one descriptor with content `example.com`. -/
theorem content_follows_default_type_witness :
    GetTraefikRules (sampleConfig [instanceIgnoring "edge" []] "CNAME") "203.0.113.5"
      (fun _ => some [routerWithRule "Host(`www.example.com`)"]) [] =
      some [{ «Type» := "CNAME", Name := "www.example.com", Content := "example.com",
              Proxied := true, TTL := 1 }] ∧
    ∃ added : List DNSRecord,
      GetTraefikRules (sampleConfig [instanceIgnoring "edge" []] "CNAME") "203.0.113.5"
        (fun _ => some [routerWithRule "Host(`www.example.com`)"]) [] = some ([] ++ added) ∧
      ∀ d ∈ added, d.Content = "example.com" := by
  refine ⟨by decide, ?_⟩
  obtain ⟨added, hrun, hall⟩ := content_follows_default_type
    (sampleConfig [instanceIgnoring "edge" []] "CNAME") "203.0.113.5"
    (fun _ => [routerWithRule "Host(`www.example.com`)"]) []
  exact ⟨added, hrun, fun d hd => (hall d hd).2.1 rfl⟩

/-- C4: with every router list decoded, the list the pass returns is the input
`userRecords` followed by appended records, and the step for each router returns
the accumulator it received followed by what it appended: nothing is removed,
reordered or edited. -/
theorem accumulator_append_only (config : Config) (currentIP : String)
    (lists : Nat → List TraefikRouter) (userRecords : List DNSRecord) :
    (∃ added : List DNSRecord,
      GetTraefikRules config currentIP (fun i => some (lists i)) userRecords =
        some (userRecords ++ added)) ∧
    (∀ (content : String) (inst : TraefikInstance) (acc : List DNSRecord)
        (router : TraefikRouter),
      ∃ tail : List DNSRecord,
        GetTraefikRules.router config content inst acc router = acc ++ tail) ∧
    (∀ (content : String) (inst : TraefikInstance) (routers : List TraefikRouter)
        (acc : List DNSRecord),
      ∃ tail : List DNSRecord,
        GetTraefikRules.rules config content inst routers acc = acc ++ tail) := by
  refine ⟨?_, ?_, ?_⟩
  · obtain ⟨added, hrun, -, -⟩ :=
      runSteps_added config (GetTraefikRules.content config currentIP)
        (schedule lists 0 config.TraefikInstances) userRecords
    exact ⟨added, by rw [getTraefikRules_decoded, hrun]⟩
  · intro content inst acc router
    rcases router_cases config content inst acc router with h | ⟨h, -, -, -, happ⟩
    · exact ⟨[], by simp [h]⟩
    · exact ⟨_, happ⟩
  · intro content inst routers acc
    obtain ⟨added, hrun, -, -⟩ :=
      runSteps_added config content (routers.map (fun r => (inst, r))) acc
    exact ⟨added, by rw [rules_eq_runSteps, hrun]⟩

/-- C5: when the hostname extracted from a router's rule contains, as a substring,
an entry of the instance's `IgnoredRules`, the step for that router leaves the
accumulator as it is, duplicate or not; and an instance whose ignore list holds the
empty string appends nothing for any of its routers. -/
theorem ignore_filter_suppresses :
    (∀ (config : Config) (content : String) (inst : TraefikInstance)
        (router : TraefikRouter) (acc : List DNSRecord) (h : String),
      extractHostname router.Rule = some h →
      (∃ ig ∈ inst.IgnoredRules, ig.data <:+: h.data) →
      GetTraefikRules.router config content inst acc router = acc) ∧
    (∀ (config : Config) (content : String) (inst : TraefikInstance)
        (routers : List TraefikRouter) (acc : List DNSRecord),
      "" ∈ inst.IgnoredRules →
      GetTraefikRules.rules config content inst routers acc = acc) := by
  constructor
  · intro config content inst router acc h hh hi
    exact router_of_ignored hh hi
  · intro config content inst routers acc hmem
    unfold GetTraefikRules.rules
    induction routers with
    | nil => rfl
    | cons router rest ih =>
      have hstep : GetTraefikRules.router config content inst acc router = acc := by
        cases hh : extractHostname router.Rule with
        | none => exact router_of_none hh
        | some h => exact router_of_ignored hh ⟨"", hmem, (List.nil_infix : [] <:+: h.data)⟩
      rw [List.foldl_cons, hstep]
      exact ih

/-- Witness of C5 (scenario 3): the ignore list holds `internal`, the rule names
`internal-tool.example.com`, no record is named so, and nothing is appended; nor
is anything appended by an instance whose ignore list holds the empty string. -/
theorem ignore_filter_suppresses_witness :
    extractHostname (routerWithRule "Host(`internal-tool.example.com`)").Rule =
      some "internal-tool.example.com" ∧
    GetTraefikRules.router (sampleConfig [instanceIgnoring "edge" ["internal"]] "A")
      "203.0.113.5" (instanceIgnoring "edge" ["internal"]) []
      (routerWithRule "Host(`internal-tool.example.com`)") = [] ∧
    GetTraefikRules.rules (sampleConfig [instanceIgnoring "edge" ["x", ""]] "A")
      "203.0.113.5" (instanceIgnoring "edge" ["x", ""])
      [routerWithRule "Host(`app.example.com`)", routerWithRule "Host(`www.example.com`)"]
      [] = [] :=
  ⟨by decide,
   ignore_filter_suppresses.1 (sampleConfig [instanceIgnoring "edge" ["internal"]] "A")
     "203.0.113.5" (instanceIgnoring "edge" ["internal"])
     (routerWithRule "Host(`internal-tool.example.com`)") [] "internal-tool.example.com"
     (by decide) ⟨"internal", by simp [instanceIgnoring], by decide⟩,
   ignore_filter_suppresses.2 (sampleConfig [instanceIgnoring "edge" ["x", ""]] "A")
     "203.0.113.5" (instanceIgnoring "edge" ["x", ""]) _ [] (by simp [instanceIgnoring])⟩

/-- C6 (amended): with every router list decoded, no descriptor the pass appended
is named like a record that precedes it in the returned list, be it a record of
the input or a descriptor appended earlier by any instance.  Two instances that
both expose a router whose rule yields the hostname `h` (for the claim,
`shared.example.com`) add at most one descriptor named `h`: exactly one when no
input record is named `h` and one of the two instances has no ignore entry that
`h` contains, and none otherwise; and a router whose hostname names a record of
the accumulator appends nothing. -/
theorem duplicate_suppression_at_most_one :
    (∀ (config : Config) (currentIP : String) (lists : Nat → List TraefikRouter)
        (userRecords : List DNSRecord),
      ∃ added : List DNSRecord,
        GetTraefikRules config currentIP (fun i => some (lists i)) userRecords =
          some (userRecords ++ added) ∧
        ∀ front d back, added = front ++ d :: back →
          ∀ r ∈ userRecords ++ front, r.Name ≠ d.Name) ∧
    (∀ (config : Config) (currentIP : String) (lists : Nat → List TraefikRouter)
        (userRecords : List DNSRecord) (inst1 inst2 : TraefikInstance)
        (router1 router2 : TraefikRouter) (h : String),
      config.TraefikInstances = [inst1, inst2] →
      router1 ∈ lists 0 → router2 ∈ lists 1 →
      extractHostname router1.Rule = some h → extractHostname router2.Rule = some h →
      ∃ added : List DNSRecord,
        GetTraefikRules config currentIP (fun i => some (lists i)) userRecords =
          some (userRecords ++ added) ∧
        (added.map (fun d => d.Name)).count h ≤ 1 ∧
        ((added.map (fun d => d.Name)).count h = 1 ↔
          (∀ r ∈ userRecords, r.Name ≠ h) ∧
          ((∀ ig ∈ inst1.IgnoredRules, ¬ ig.data <:+: h.data) ∨
           (∀ ig ∈ inst2.IgnoredRules, ¬ ig.data <:+: h.data)))) ∧
    (∀ (config : Config) (content : String) (inst : TraefikInstance)
        (router : TraefikRouter) (acc : List DNSRecord) (h : String),
      extractHostname router.Rule = some h → (∃ r ∈ acc, r.Name = h) →
      GetTraefikRules.router config content inst acc router = acc) := by
  refine ⟨?_, ?_, ?_⟩
  · intro config currentIP lists userRecords
    obtain ⟨added, hrun, -, hnames⟩ :=
      runSteps_added config (GetTraefikRules.content config currentIP)
        (schedule lists 0 config.TraefikInstances) userRecords
    exact ⟨added, by rw [getTraefikRules_decoded, hrun], hnames⟩
  · intro config currentIP lists userRecords inst1 inst2 router1 router2 h hinsts
      hr1 hr2 hh1 hh2
    obtain ⟨added, hrun, -, hnames⟩ :=
      runSteps_added config (GetTraefikRules.content config currentIP)
        (schedule lists 0 config.TraefikInstances) userRecords
    have hnodup : (added.map (fun d => d.Name)).Nodup :=
      nodup_names_of_fresh added (fun front d back hsplit r hr =>
        hnames front d back hsplit r (List.mem_append_right _ hr))
    have hle : (added.map (fun d => d.Name)).count h ≤ 1 :=
      List.nodup_iff_count_le_one.1 hnodup h
    have hfresh : ∀ d ∈ added, ∀ r ∈ userRecords, r.Name ≠ d.Name := by
      intro d hd r hr
      obtain ⟨front, back, hsplit⟩ := List.append_of_mem hd
      exact hnames front d back hsplit r (List.mem_append_left _ hr)
    refine ⟨added, by rw [getTraefikRules_decoded, hrun], hle, ?_, ?_⟩
    · intro hone
      have hmem : h ∈ added.map (fun d => d.Name) :=
        List.count_pos_iff.1 (by omega)
      obtain ⟨d, hd, hdn⟩ := List.mem_map.1 hmem
      have hdn' : d.Name = h := hdn
      refine ⟨fun r hr => by rw [← hdn']; exact hfresh d hd r hr, ?_⟩
      have hres : d ∈ runSteps config (GetTraefikRules.content config currentIP)
          (schedule lists 0 config.TraefikInstances) userRecords := by
        rw [hrun]; exact List.mem_append_right _ hd
      rcases runSteps_origin config _ _ userRecords d hres with hin | ⟨p, hp, -, hi⟩
      · exact absurd rfl (hfresh d hd d hin)
      · rw [hinsts, schedule_two, List.mem_append] at hp
        rw [hdn'] at hi
        rcases hp with hp | hp
        · obtain ⟨r, -, rfl⟩ := List.mem_map.1 hp
          exact Or.inl hi
        · obtain ⟨r, -, rfl⟩ := List.mem_map.1 hp
          exact Or.inr hi
    · rintro ⟨hnew, hign⟩
      have hcover : ∃ r ∈ runSteps config (GetTraefikRules.content config currentIP)
          (schedule lists 0 config.TraefikInstances) userRecords, r.Name = h := by
        rw [hinsts, schedule_two]
        rcases hign with hi | hi
        · exact runSteps_covers config _ h _ userRecords (inst1, router1)
            (List.mem_append_left _ (List.mem_map.2 ⟨router1, hr1, rfl⟩)) hh1 hi
        · exact runSteps_covers config _ h _ userRecords (inst2, router2)
            (List.mem_append_right _ (List.mem_map.2 ⟨router2, hr2, rfl⟩)) hh2 hi
      obtain ⟨r, hr, hrn⟩ := hcover
      rw [hrun] at hr
      rcases List.mem_append.1 hr with hin | hin
      · exact absurd hrn (hnew r hin)
      · have hmem : h ∈ added.map (fun d => d.Name) := List.mem_map.2 ⟨r, hin, hrn⟩
        have hpos := List.count_pos_iff.2 hmem
        omega
  · intro config content inst router acc h hh hd
    exact router_of_duplicate hh hd

/-- Witness of C6 (scenarios 5 and 2): two instances without ignore entries that
expose the same hostname add one descriptor of that name, and a rule whose
hostname an input record has appends nothing. -/
theorem duplicate_suppression_at_most_one_witness :
    (∃ added : List DNSRecord,
      GetTraefikRules
        (sampleConfig [instanceIgnoring "edge1" [], instanceIgnoring "edge2" []] "A")
        "203.0.113.5" (fun _ => some [routerWithRule "Host(`shared.example.com`)"]) [] =
        some ([] ++ added) ∧
      (added.map (fun d => d.Name)).count "shared.example.com" = 1) ∧
    GetTraefikRules
      (sampleConfig [instanceIgnoring "edge1" [], instanceIgnoring "edge2" []] "A")
      "203.0.113.5" (fun _ => some [routerWithRule "Host(`shared.example.com`)"]) [] =
      some [{ «Type» := "A", Name := "shared.example.com", Content := "203.0.113.5",
              Proxied := true, TTL := 1 }] ∧
    GetTraefikRules.router (sampleConfig [instanceIgnoring "edge" []] "A") "203.0.113.5"
      (instanceIgnoring "edge" [])
      [{ «Type» := "A", Name := "app.example.com", Content := "198.51.100.7",
         Proxied := false, TTL := 300 }]
      (routerWithRule "Host(`app.example.com`) && PathPrefix(`/v1`)") =
      [{ «Type» := "A", Name := "app.example.com", Content := "198.51.100.7",
         Proxied := false, TTL := 300 }] := by
  refine ⟨?_, by decide, ?_⟩
  · obtain ⟨added, hrun, -, hone⟩ := duplicate_suppression_at_most_one.2.1
      (sampleConfig [instanceIgnoring "edge1" [], instanceIgnoring "edge2" []] "A")
      "203.0.113.5" (fun _ => [routerWithRule "Host(`shared.example.com`)"]) []
      (instanceIgnoring "edge1" []) (instanceIgnoring "edge2" [])
      (routerWithRule "Host(`shared.example.com`)")
      (routerWithRule "Host(`shared.example.com`)") "shared.example.com"
      rfl (List.mem_singleton_self _) (List.mem_singleton_self _) (by decide) (by decide)
    exact ⟨added, hrun, hone.2 ⟨by simp, Or.inl (by simp [instanceIgnoring])⟩⟩
  · exact duplicate_suppression_at_most_one.2.2
      (sampleConfig [instanceIgnoring "edge" []] "A")
      "203.0.113.5" (instanceIgnoring "edge" [])
      (routerWithRule "Host(`app.example.com`) && PathPrefix(`/v1`)") _ "app.example.com"
      (by decide) ⟨_, List.mem_singleton_self _, rfl⟩

/-- Counterexample to C6 as worded: two instances that both expose a router for
`Host(shared.example.com)` (hostname in backquotes) and both hold `shared` in
their ignore lists add no descriptor at all, so not exactly one. -/
theorem duplicate_suppression_both_ignoring :
    GetTraefikRules
      (sampleConfig [instanceIgnoring "edge1" ["shared"],
        instanceIgnoring "edge2" ["shared"]] "A")
      "203.0.113.5" (fun _ => some [routerWithRule "Host(`shared.example.com`)"]) [] =
      some [] ∧
    extractHostname (routerWithRule "Host(`shared.example.com`)").Rule =
      some "shared.example.com" := by
  decide

/-- C7: with every router list decoded, the pass returns a list `R`, and the pass
run again on `R` with the same configuration and the same router lists returns
`R` itself: the second run appends nothing. -/
theorem pass_idempotent (config : Config) (currentIP : String)
    (lists : Nat → List TraefikRouter) (userRecords : List DNSRecord) :
    ∃ R : List DNSRecord,
      GetTraefikRules config currentIP (fun i => some (lists i)) userRecords = some R ∧
      GetTraefikRules config currentIP (fun i => some (lists i)) R = some R := by
  refine ⟨_, getTraefikRules_decoded config currentIP lists userRecords, ?_⟩
  rw [getTraefikRules_decoded]
  congr 1
  exact runSteps_absorbed config _ _ userRecords _ (List.prefix_refl _)

/-- C8: when a rule holds a clause `Host(h)` (with `h` in backquotes) whose `h` is
a well-formed hostname, and every clause with a well-formed hostname that the rule
holds begins at that same place, the pattern of line 82 matches the rule and its
group 1 is exactly `h`, whatever surrounds the clause; the captured text holds
lowercase letters, digits, hyphens and dots only. -/
theorem hostname_extraction_exact (rule : String) (front host rest : List Char)
    (hrule : rule.data = front ++ hostClause host ++ rest)
    (hhost : IsHostname host)
    (honly : ∀ front' host' rest', IsHostname host' →
      rule.data = front' ++ hostClause host' ++ rest' → front' = front) :
    regexp.MatchString re rule = true ∧
    (regexp.FindStringSubmatch re rule)[1]? = some (String.mk host) ∧
    (∀ c ∈ ((regexp.FindStringSubmatch re rule).getD 1 "").data,
      IsLowerOrDigit c ∨ c = '-' ∨ c = '.') := by
  have hx : extractHostname rule = some (String.mk host) :=
    extractHostname_leftmost hhost hrule
      (fun front' host' rest' hh' hs' => by rw [honly front' host' rest' hh' hs'])
  have hm : regexp.MatchString re rule = true := by
    by_contra hcon
    simp [extractHostname, hcon] at hx
  have hget : (regexp.FindStringSubmatch re rule).getD 1 "" = String.mk host := by
    simpa [extractHostname, hm] using hx
  have hlen := findStringSubmatch_length rule hm
  refine ⟨hm, ?_, ?_⟩
  · rw [← hget, List.getD_eq_getElem?_getD]
    cases hq : (regexp.FindStringSubmatch re rule)[1]? with
    | none =>
      rw [List.getElem?_eq_none_iff] at hq
      omega
    | some x => rfl
  · rw [hget]
    exact isHostname_chars hhost

/-- Witness of C8: the rule of scenario 2, a clause for `app.example.com` followed
by a path predicate. -/
theorem hostname_extraction_exact_witness :
    regexp.MatchString re "Host(`app.example.com`) && PathPrefix(`/v1`)" = true ∧
    (regexp.FindStringSubmatch re "Host(`app.example.com`) && PathPrefix(`/v1`)")[1]? =
      some "app.example.com" :=
  have hhost : IsHostname "app.example.com".data :=
    ⟨["app".data, "example".data], "com".data, by simp,
      by
        intro l hl
        simp only [List.mem_cons, List.mem_singleton, List.not_mem_nil, or_false] at hl
        rcases hl with rfl | rfl
        · exact ⟨["app".data], by simp, by
            intro r hr; rw [List.mem_singleton] at hr; rw [hr]
            exact ⟨by decide, by decide⟩, rfl⟩
        · exact ⟨["example".data], by simp, by
            intro r hr; rw [List.mem_singleton] at hr; rw [hr]
            exact ⟨by decide, by decide⟩, rfl⟩,
      ⟨by decide, by decide⟩, rfl⟩
  have h := hostname_extraction_exact "Host(`app.example.com`) && PathPrefix(`/v1`)"
    [] "app.example.com".data " && PathPrefix(`/v1`)".data rfl hhost
    (fun front' host' rest' _ hs' =>
      List.eq_nil_of_length_eq_zero
        (clause_front_length (n := 0) (by decide) hs'))
  ⟨h.1, h.2.1⟩

/-- C9: a rule that does not contain `Host(` followed by a backquote is not
matched by the pattern of line 82, `FindStringSubmatch` gives `nil`, and the step
for a router with that rule returns the accumulator as it received it. -/
theorem no_host_clause_no_record (rule : String)
    (hno : ¬ "Host(`".data <:+: rule.data) :
    regexp.MatchString re rule = false ∧
    regexp.FindStringSubmatch re rule = [] ∧
    ∀ (config : Config) (content : String) (inst : TraefikInstance)
      (acc : List DNSRecord) (router : TraefikRouter),
      router.Rule = rule →
      GetTraefikRules.router config content inst acc router = acc := by
  have hx : extractHostname rule = none :=
    extractHostname_none (fun front host rest _ hs => hno (hostOpen_infix_of_clause hs))
  have hm : regexp.MatchString re rule = false := by
    by_contra hcon
    simp [extractHostname, hcon] at hx
  refine ⟨hm, ?_, ?_⟩
  · unfold regexp.MatchString at hm
    unfold regexp.FindStringSubmatch
    cases hf : regexp.find re rule.data with
    | none => rfl
    | some caps => rw [hf] at hm; exact absurd hm (by simp)
  · intro config content inst acc router hr
    exact router_of_none (by rw [hr]; exact hx)

/-- Witness of C9: the rule `PathPrefix(/api)` (path in backquotes) of the
specification, on an accumulator of one record, and the empty rule. -/
theorem no_host_clause_no_record_witness :
    regexp.MatchString re "" = false ∧
    regexp.MatchString re "PathPrefix(`/api`)" = false ∧
    GetTraefikRules.router (sampleConfig [instanceIgnoring "edge" []] "A") "203.0.113.5"
      (instanceIgnoring "edge" [])
      [{ «Type» := "A", Name := "app.example.com", Content := "198.51.100.7",
         Proxied := false, TTL := 300 }]
      (routerWithRule "PathPrefix(`/api`)") =
      [{ «Type» := "A", Name := "app.example.com", Content := "198.51.100.7",
         Proxied := false, TTL := 300 }] :=
  have h := no_host_clause_no_record "PathPrefix(`/api`)" (by decide)
  ⟨(no_host_clause_no_record "" (by decide)).1, h.1, h.2.2 _ _ _ _ _ rfl⟩

/-- C10: when a rule holds a clause `Host(h)` with a well-formed hostname `h` and
no clause with a well-formed hostname begins before it, the extracted hostname
`FindStringSubmatch(rule)[1]` is `h`, also when further clauses follow; the step
for a router with that rule appends nothing or the one descriptor named `h`, so
the hostname of a later clause is not appended for that router. -/
theorem first_match_leftmost_clause (rule : String) (front host rest : List Char)
    (hrule : rule.data = front ++ hostClause host ++ rest)
    (hhost : IsHostname host)
    (hleft : ∀ front' host' rest', IsHostname host' →
      rule.data = front' ++ hostClause host' ++ rest' → front.length ≤ front'.length) :
    (regexp.FindStringSubmatch re rule)[1]? = some (String.mk host) ∧
    ∀ (config : Config) (content : String) (inst : TraefikInstance)
      (acc : List DNSRecord) (router : TraefikRouter),
      router.Rule = rule →
      GetTraefikRules.router config content inst acc router = acc ∨
      GetTraefikRules.router config content inst acc router =
        acc ++ [{ «Type» := config.Cloudflare.Defaults.«Type», Name := String.mk host,
                  Content := content, Proxied := config.Cloudflare.Defaults.Proxied,
                  TTL := config.Cloudflare.Defaults.TTL }] := by
  have hx : extractHostname rule = some (String.mk host) :=
    extractHostname_leftmost hhost hrule hleft
  have hm : regexp.MatchString re rule = true := by
    by_contra hcon
    simp [extractHostname, hcon] at hx
  have hget : (regexp.FindStringSubmatch re rule).getD 1 "" = String.mk host := by
    simpa [extractHostname, hm] using hx
  have hlen := findStringSubmatch_length rule hm
  constructor
  · rw [← hget, List.getD_eq_getElem?_getD]
    cases hq : (regexp.FindStringSubmatch re rule)[1]? with
    | none =>
      rw [List.getElem?_eq_none_iff] at hq
      omega
    | some x => rfl
  · intro config content inst acc router hr
    rcases router_cases config content inst acc router with h | ⟨h, hh, -, -, happ⟩
    · exact Or.inl h
    · right
      rw [hr, hx] at hh
      simp only [Option.some.injEq] at hh
      rw [happ, ← hh]

/-- Witness of C10: a rule with a path predicate and two clauses; the hostname of
the first clause, `a.example.com`, is extracted and is the only one appended. -/
theorem first_match_leftmost_clause_witness :
    (regexp.FindStringSubmatch re
      "PathPrefix(`/x`) && (Host(`a.example.com`) || Host(`b.example.com`))")[1]? =
      some "a.example.com" ∧
    (GetTraefikRules.router (sampleConfig [instanceIgnoring "edge" []] "A") "203.0.113.5"
      (instanceIgnoring "edge" []) []
      (routerWithRule "PathPrefix(`/x`) && (Host(`a.example.com`) || Host(`b.example.com`))") =
      [] ∨
     GetTraefikRules.router (sampleConfig [instanceIgnoring "edge" []] "A") "203.0.113.5"
      (instanceIgnoring "edge" []) []
      (routerWithRule "PathPrefix(`/x`) && (Host(`a.example.com`) || Host(`b.example.com`))") =
      [] ++ [{ «Type» := "A", Name := "a.example.com", Content := "203.0.113.5",
               Proxied := true, TTL := 1 }]) ∧
    GetTraefikRules.router (sampleConfig [instanceIgnoring "edge" []] "A") "203.0.113.5"
      (instanceIgnoring "edge" []) []
      (routerWithRule "PathPrefix(`/x`) && (Host(`a.example.com`) || Host(`b.example.com`))") =
      [{ «Type» := "A", Name := "a.example.com", Content := "203.0.113.5",
         Proxied := true, TTL := 1 }] :=
  have hhost : IsHostname "a.example.com".data :=
    ⟨["a".data, "example".data], "com".data, by simp,
      by
        intro l hl
        simp only [List.mem_cons, List.mem_singleton, List.not_mem_nil, or_false] at hl
        rcases hl with rfl | rfl
        · exact ⟨["a".data], by simp, by
            intro r hr; rw [List.mem_singleton] at hr; rw [hr]
            exact ⟨by decide, by decide⟩, rfl⟩
        · exact ⟨["example".data], by simp, by
            intro r hr; rw [List.mem_singleton] at hr; rw [hr]
            exact ⟨by decide, by decide⟩, rfl⟩,
      ⟨by decide, by decide⟩, rfl⟩
  have h := first_match_leftmost_clause
    "PathPrefix(`/x`) && (Host(`a.example.com`) || Host(`b.example.com`))"
    "PathPrefix(`/x`) && (".data "a.example.com".data " || Host(`b.example.com`))".data
    rfl hhost
    (fun front' host' rest' _ hs' => clause_front_length_ge (by decide) hs')
  ⟨h.1,
   h.2 (sampleConfig [instanceIgnoring "edge" []] "A") "203.0.113.5"
     (instanceIgnoring "edge" []) []
     (routerWithRule "PathPrefix(`/x`) && (Host(`a.example.com`) || Host(`b.example.com`))")
     rfl,
   by decide⟩
